import Mathlib

/-!
# Verification of the sensei logistic-regression training engine

Shallow embedding, in Lean 4, of the components of the sensei training
engine that the verified properties talk about:

* `JRenumbering` (j_renumbering.h): compaction of the dense feature-index
  space after pruning.
* `Regularizations`, `Dim1Majorizer`, `Majorizer.UpdateMinimum`
  (optimizers.h): the per-coordinate quadratic majorizer of logistic loss
  and the batch coordinate update with inertia, step scaling and undo.
* `RowExtender.ExtendSparseBool` (row_extender.h): closure of a sparse row
  under the dependees graph.
* `FeaturePruning.ComputePruning` (feature_pruning.cc): priority-driven
  pruning respecting dependee order.
* `Sgd.ApplyRegularization` / `Sgd.GetLearningRate` (sgd.h): the SGD
  proximal regularization pass.
* `FeatureMapBase` (feature_map.h): the bimap key ↔ J.
* `PrioritySumIterator` (range.h): the bounded priority pair iterator used
  by feature exploration.
* `World.RemoveAndRenumber` (world.cc): the structural-change choke point.

C++ `double` values are modelled as rationals (`ℚ`); the transcendental
helpers (`sqrt`, `exp`) that only feed into the formulas as opaque inputs
are taken as explicit function parameters.  `+∞` (`kInfinity`), which in
the source is only ever compared against or stored, is modelled with
`WithTop ℚ`.  Machine integers are modelled as `ℕ`; the only overflow
sentinel that matters is `kInvalidJ = 2^32 - 1`.
-/

namespace Sensei

/-- common.h: `kInvalidJ = static_cast<uint32>(-1)`. -/
def kInvalidJ : ℕ := 2 ^ 32 - 1

/-- common.h: `Sign(x) = (x > 0) - (x < 0)`. -/
def Sign (x : ℚ) : ℚ := (if x > 0 then 1 else 0) - (if x < 0 then 1 else 0)

/-! ## JRenumbering (j_renumbering.h) -/

/-- j_renumbering.h: mapping from old J to new J (`kInvalidJ` = removed)
together with the count `next_j` of surviving J's. -/
structure JRenumbering where
  jToNewJ : List ℕ
  nextJ : ℕ
  deriving Repr, DecidableEq

namespace JRenumbering

/-- j_renumbering.h `FillJToNewJ`: walk `j_to_new_j_` replacing each `0`
entry by the running counter `next_j_` (post-incremented); `kInvalidJ`
entries are left alone.  Returns the rewritten list and the final counter. -/
def fillJToNewJ : List ℕ → ℕ → List ℕ × ℕ
  | [], next => ([], next)
  | e :: rest, next =>
    if e = 0 then
      let t := fillJToNewJ rest (next + 1)
      (next :: t.1, t.2)
    else
      let t := fillJToNewJ rest next
      (e :: t.1, t.2)

/-- j_renumbering.h `JRenumbering::RemoveJs`: start from an all-zero map of
the same length as `js_to_remove`, set removed entries to `kInvalidJ`
(`SetInvalid`), then `FillJToNewJ`. -/
def RemoveJs (jsToRemove : List Bool) : JRenumbering :=
  let invalidated := jsToRemove.map (fun b => if b then kInvalidJ else 0)
  let t := fillJToNewJ invalidated 0
  ⟨t.1, t.2⟩

/-- j_renumbering.h `RemoveAndRenumberJsTo`: map each J of a row through
`j_to_new_j_`, dropping the `kInvalidJ` images. -/
def removeAndRenumberJsTo (r : JRenumbering) (inJs : List ℕ) : List ℕ :=
  inJs.foldl
    (fun out j =>
      if r.jToNewJ.getD j kInvalidJ ≠ kInvalidJ then
        out ++ [r.jToNewJ.getD j kInvalidJ]
      else out)
    []

/-- j_renumbering.h `RenumberIndicies`: build a vector of length `next_j_`
(value-initialised to `dflt`) and move `v[j]` to slot `j_to_new_j_[j]` for
every surviving `j`.  If `j_to_new_j_` is empty the vector is unchanged. -/
def renumberIndicies (r : JRenumbering) (dflt : α) (v : List α) : List α :=
  if r.jToNewJ.isEmpty then v
  else
    (List.range v.length).foldl
      (fun newV j =>
        if r.jToNewJ.getD j kInvalidJ ≠ kInvalidJ then
          newV.set (r.jToNewJ.getD j kInvalidJ) (v.getD j dflt)
        else newV)
      (List.replicate r.nextJ dflt)

/-- j_renumbering.h `NewJToOldJ`: vector of length `next_j` holding, at the
new index of each survivor, its old index. -/
def newJToOldJ (r : JRenumbering) : List ℕ :=
  (List.range r.jToNewJ.length).foldl
    (fun ret oldJ =>
      if r.jToNewJ.getD oldJ kInvalidJ ≠ kInvalidJ then
        ret.set (r.jToNewJ.getD oldJ kInvalidJ) oldJ
      else ret)
    (List.replicate r.nextJ kInvalidJ)

/-- j_renumbering.h `IsNoOp`: the map is the identity on its domain. -/
def IsNoOp (r : JRenumbering) : Bool :=
  (List.range r.jToNewJ.length).all (fun j => r.jToNewJ.getD j kInvalidJ = j)

end JRenumbering

/-- Number of surviving (not removed) J's strictly before index `j`. -/
def survBefore (removed : List Bool) (j : ℕ) : ℕ :=
  (removed.take j).countP (fun b => !b)


namespace JRenumbering

theorem kInvalidJ_ne_zero : kInvalidJ ≠ 0 := by decide

theorem fill_cons_invalid (rest : List ℕ) (next : ℕ) :
    fillJToNewJ (kInvalidJ :: rest) next =
      (kInvalidJ :: (fillJToNewJ rest next).1, (fillJToNewJ rest next).2) := by
  simp [fillJToNewJ, kInvalidJ_ne_zero]

theorem fill_cons_zero (rest : List ℕ) (next : ℕ) :
    fillJToNewJ (0 :: rest) next =
      (next :: (fillJToNewJ rest (next + 1)).1, (fillJToNewJ rest (next + 1)).2) := by
  simp [fillJToNewJ]

theorem fill_removeJs_spec (removed : List Bool) (next : ℕ) :
    (fillJToNewJ (removed.map fun b => if b then kInvalidJ else 0) next).1.length
        = removed.length ∧
    (fillJToNewJ (removed.map fun b => if b then kInvalidJ else 0) next).2
        = next + removed.countP (fun b => !b) ∧
    ∀ i, i < removed.length →
      (fillJToNewJ (removed.map fun b => if b then kInvalidJ else 0) next).1.getD i kInvalidJ
        = if removed.getD i true then kInvalidJ else next + survBefore removed i := by
  induction removed generalizing next with
  | nil => simp [fillJToNewJ]
  | cons b rest ih =>
    cases b with
    | true =>
      rw [List.map_cons, if_pos rfl, fill_cons_invalid]
      refine ⟨by simp [(ih next).1], ?_, ?_⟩
      · rw [(ih next).2.1, List.countP_cons]
        simp
      intro i hi
      cases i with
      | zero => rw [List.getD_cons_zero, List.getD_cons_zero, if_pos rfl]
      | succ i =>
        rw [List.getD_cons_succ, List.getD_cons_succ,
          (ih next).2.2 i (by simpa using hi)]
        rfl
    | false =>
      rw [List.map_cons, if_neg Bool.false_ne_true, fill_cons_zero]
      refine ⟨by simp [(ih (next + 1)).1], ?_, ?_⟩
      · rw [(ih (next + 1)).2.1, List.countP_cons]
        simp only [Bool.not_false, if_true]
        omega
      intro i hi
      cases i with
      | zero =>
        rw [List.getD_cons_zero, List.getD_cons_zero, if_neg Bool.false_ne_true]
        simp [survBefore]
      | succ i =>
        rw [List.getD_cons_succ, List.getD_cons_succ,
          (ih (next + 1)).2.2 i (by simpa using hi)]
        have hsb : survBefore (false :: rest) (i + 1) = survBefore rest i + 1 := by
          simp [survBefore, List.take_succ_cons, List.countP_cons]
        split
        · rfl
        · rw [hsb]; omega

theorem survBefore_lt_total (removed : List Bool) (j : ℕ) (hj : j < removed.length)
    (hs : removed.getD j true = false) :
    survBefore removed j < removed.countP (fun b => !b) := by
  induction removed generalizing j with
  | nil => simp at hj
  | cons b rest ih =>
    cases j with
    | zero =>
      rw [List.getD_cons_zero] at hs
      subst hs
      simp [survBefore, List.countP_cons]
    | succ j =>
      rw [List.getD_cons_succ] at hs
      have := ih j (by simpa using hj) hs
      have hsb : survBefore (b :: rest) (j + 1)
          = survBefore rest j + (if !b then 1 else 0) := by
        simp only [survBefore, List.take_succ_cons, List.countP_cons]
      rw [hsb, List.countP_cons]
      split <;> simp <;> omega

theorem survBefore_mono (removed : List Bool) (a b : ℕ) (hab : a ≤ b) :
    survBefore removed a ≤ survBefore removed b := by
  unfold survBefore
  calc (removed.take a).countP (fun x => !x)
      = ((removed.take b).take a).countP (fun x => !x) := by
        rw [List.take_take, min_eq_left hab]
    _ ≤ (removed.take b).countP (fun x => !x) := by
        conv_rhs => rw [← List.take_append_drop a (removed.take b)]
        rw [List.countP_append]
        omega

theorem survBefore_succ_of_false (removed : List Bool) (j : ℕ)
    (hj : j < removed.length) (hs : removed.getD j true = false) :
    survBefore removed (j + 1) = survBefore removed j + 1 := by
  induction removed generalizing j with
  | nil => simp at hj
  | cons b rest ih =>
    cases j with
    | zero =>
      rw [List.getD_cons_zero] at hs
      subst hs
      simp [survBefore, List.countP_cons]
    | succ j =>
      rw [List.getD_cons_succ] at hs
      have := ih j (by simpa using hj) hs
      simp only [survBefore, List.take_succ_cons, List.countP_cons] at *
      omega

theorem survBefore_strict (removed : List Bool) (j1 j2 : ℕ) (h12 : j1 < j2)
    (hs : removed.getD j1 true = false) (hj1 : j1 < removed.length) :
    survBefore removed j1 < survBefore removed j2 :=
  calc survBefore removed j1 < survBefore removed j1 + 1 := Nat.lt_succ_self _
    _ = survBefore removed (j1 + 1) := (survBefore_succ_of_false removed j1 hj1 hs).symm
    _ ≤ survBefore removed j2 := survBefore_mono removed _ _ h12

theorem survBefore_surjective (removed : List Bool) (v : ℕ)
    (hv : v < removed.countP (fun b => !b)) :
    ∃ j, j < removed.length ∧ removed.getD j true = false ∧ survBefore removed j = v := by
  induction removed generalizing v with
  | nil => simp at hv
  | cons b rest ih =>
    cases b with
    | true =>
      rw [List.countP_cons] at hv
      simp only [Bool.not_true] at hv
      obtain ⟨j, hj, hb, hsv⟩ := ih v (by simpa using hv)
      refine ⟨j + 1, by simpa using hj, by rwa [List.getD_cons_succ], ?_⟩
      simpa [survBefore, List.take_succ_cons, List.countP_cons] using hsv
    | false =>
      cases v with
      | zero =>
        exact ⟨0, by simp, by rw [List.getD_cons_zero], by simp [survBefore]⟩
      | succ v =>
        have hv' : v < rest.countP (fun b => !b) := by
          rw [List.countP_cons] at hv
          simp only [Bool.not_false, if_true] at hv
          omega
        obtain ⟨j, hj, hb, hsv⟩ := ih v hv'
        refine ⟨j + 1, by simpa using hj, by rwa [List.getD_cons_succ], ?_⟩
        simp only [survBefore, List.take_succ_cons, List.countP_cons,
          Bool.not_false, if_true] at *
        omega

end JRenumbering

/-- C4: `JRenumbering::RemoveJs` maps each removed J to `kInvalidJ` and maps
the surviving J's bijectively onto the dense interval `[0, next_j)`
preserving relative order: a survivor `j` is sent to the number of survivors
before it (hence the restriction to survivors is strictly increasing),
`next_j` is the total number of survivors, and every value below `next_j`
is attained by a survivor. -/
theorem removeJs_renumbering_spec (removed : List Bool) :
    ((JRenumbering.RemoveJs removed).jToNewJ.length = removed.length ∧
      (JRenumbering.RemoveJs removed).nextJ = removed.countP (fun b => !b)) ∧
    (∀ j, j < removed.length → removed.getD j true = true →
        (JRenumbering.RemoveJs removed).jToNewJ.getD j kInvalidJ = kInvalidJ) ∧
    (∀ j, j < removed.length → removed.getD j true = false →
        (JRenumbering.RemoveJs removed).jToNewJ.getD j kInvalidJ = survBefore removed j ∧
        (JRenumbering.RemoveJs removed).jToNewJ.getD j kInvalidJ
          < (JRenumbering.RemoveJs removed).nextJ) ∧
    (∀ j1 j2, j1 < j2 → j2 < removed.length →
        removed.getD j1 true = false → removed.getD j2 true = false →
        (JRenumbering.RemoveJs removed).jToNewJ.getD j1 kInvalidJ
          < (JRenumbering.RemoveJs removed).jToNewJ.getD j2 kInvalidJ) ∧
    (∀ v, v < (JRenumbering.RemoveJs removed).nextJ →
        ∃ j, j < removed.length ∧ removed.getD j true = false ∧
          (JRenumbering.RemoveJs removed).jToNewJ.getD j kInvalidJ = v) := by
  have hspec := JRenumbering.fill_removeJs_spec removed 0
  have hlen : (JRenumbering.RemoveJs removed).jToNewJ.length = removed.length := hspec.1
  have hnext : (JRenumbering.RemoveJs removed).nextJ = removed.countP (fun b => !b) := by
    have := hspec.2.1
    simpa [JRenumbering.RemoveJs] using this
  have hget : ∀ i, i < removed.length →
      (JRenumbering.RemoveJs removed).jToNewJ.getD i kInvalidJ =
        if removed.getD i true then kInvalidJ else survBefore removed i := by
    intro i hi
    have := hspec.2.2 i hi
    simpa [JRenumbering.RemoveJs] using this
  refine ⟨⟨hlen, hnext⟩, ?_, ?_, ?_, ?_⟩
  · intro j hj hrem
    rw [hget j hj, if_pos hrem]
  · intro j hj hsur
    rw [hget j hj, if_neg (by rw [hsur]; exact Bool.false_ne_true), hnext]
    exact ⟨rfl, JRenumbering.survBefore_lt_total removed j hj hsur⟩
  · intro j1 j2 h12 hj2 hs1 hs2
    rw [hget j1 (h12.trans hj2), if_neg (by rw [hs1]; exact Bool.false_ne_true),
        hget j2 hj2, if_neg (by rw [hs2]; exact Bool.false_ne_true)]
    exact JRenumbering.survBefore_strict removed j1 j2 h12 hs1 (h12.trans hj2)
  · intro v hv
    rw [hnext] at hv
    obtain ⟨j, hj, hb, hsv⟩ := JRenumbering.survBefore_surjective removed v hv
    exact ⟨j, hj, hb,
      by rw [hget j hj, if_neg (by rw [hb]; exact Bool.false_ne_true), hsv]⟩

/-- Witness for C4 at the concrete removal bitset `[false, true, true, false]`:
survivor 0 maps to 0, survivor 3 maps to 1, removed J's map to `kInvalidJ`,
and `next_j = 2`. -/
theorem removeJs_renumbering_spec_witness :
    (JRenumbering.RemoveJs [false, true, true, false]).jToNewJ.getD 3 kInvalidJ = 1 ∧
    (JRenumbering.RemoveJs [false, true, true, false]).jToNewJ.getD 1 kInvalidJ
      = kInvalidJ ∧
    (JRenumbering.RemoveJs [false, true, true, false]).nextJ = 2 := by
  refine ⟨((removeJs_renumbering_spec [false, true, true, false]).2.2.1 3 (by decide)
      (by decide)).1.trans (by decide),
    (removeJs_renumbering_spec [false, true, true, false]).2.1 1 (by decide) (by decide),
    (removeJs_renumbering_spec [false, true, true, false]).1.2.trans (by decide)⟩

/-! ## Regularizations and the quadratic majorizer (optimizers.h) -/

/-- common.h: `kEpsilon = std::numeric_limits<Double>::epsilon() = 2⁻⁵²`. -/
def kEpsilon : ℚ := 1 / 2 ^ 52

/-- config.proto `Set::Regularization`: an (l1, l2, l1_at_weight_zero)
triple. -/
structure RegConfig where
  l1 : ℚ
  l2 : ℚ
  l1AtWeightZero : ℚ
  deriving Repr, DecidableEq

/-- optimizers.h `Regularizations`: the four additive contributions
(base, ÷√n, ×√n, confidence). -/
structure Regularizations where
  regularization : RegConfig
  regularizationDivSqrtN : RegConfig
  regularizationMulSqrtN : RegConfig
  regularizationConfidence : RegConfig
  deriving Repr, DecidableEq

namespace Regularizations

/-- optimizers.h `Regularizations::L1`.  The square root on doubles is an
opaque parameter `sqrt`. -/
def L1 (regs : Regularizations) (sqrt : ℚ → ℚ) (rowsWithJ : ℕ) (weight a : ℚ) : ℚ :=
  let sqrtOfRowsWithJ := sqrt ((rowsWithJ : ℚ) + 1)
  let sqrtOfMajorizerAPlusEpsilon := sqrt a + kEpsilon
  let retL1 := regs.regularization.l1
    + regs.regularizationDivSqrtN.l1 / sqrtOfRowsWithJ
    + regs.regularizationMulSqrtN.l1 * sqrtOfRowsWithJ
    + regs.regularizationConfidence.l1 / sqrtOfMajorizerAPlusEpsilon
  if weight = 0 then
    retL1 + regs.regularization.l1AtWeightZero
      + regs.regularizationDivSqrtN.l1AtWeightZero / sqrtOfRowsWithJ
      + regs.regularizationMulSqrtN.l1AtWeightZero * sqrtOfRowsWithJ
      + regs.regularizationConfidence.l1AtWeightZero / sqrtOfMajorizerAPlusEpsilon
  else retL1

/-- optimizers.h `Regularizations::L2`. -/
def L2 (regs : Regularizations) (sqrt : ℚ → ℚ) (rowsWithJ : ℕ) (a : ℚ) : ℚ :=
  let sqrtOfRowsWithJ := sqrt ((rowsWithJ : ℚ) + 1)
  regs.regularization.l2
    + regs.regularizationDivSqrtN.l2 / sqrtOfRowsWithJ
    + regs.regularizationMulSqrtN.l2 * sqrtOfRowsWithJ
    + regs.regularizationConfidence.l2 / (sqrt a + kEpsilon)

/-- The all-zero regularization configuration. -/
def zero : Regularizations :=
  ⟨⟨0, 0, 0⟩, ⟨0, 0, 0⟩, ⟨0, 0, 0⟩, ⟨0, 0, 0⟩⟩

end Regularizations

/-- optimizers.h `Dim1Majorizer`: one-dimensional quadratic majorizer
`f(w) = (a/4 + L2)·w² + (b − a·w₀)/2·w + L1·|w| + c`. -/
structure Dim1Majorizer where
  a : ℚ
  b : ℚ
  deriving Repr, DecidableEq

instance : Inhabited Dim1Majorizer := ⟨⟨0, 0⟩⟩

namespace Dim1Majorizer

/-- optimizers.h `Dim1Majorizer::GetMinimum`: the minimizer of the
regularized majorizer around `w0`, with inertia added before the L1
soft-threshold. -/
def GetMinimum (m : Dim1Majorizer) (sqrt : ℚ → ℚ) (regs : Regularizations)
    (w0 inertia stepMultiplier : ℚ) (rowsWithJ : ℕ) : ℚ :=
  let aj := m.a + regs.L2 sqrt rowsWithJ m.a * 4
  let bj := m.a * w0 - stepMultiplier * m.b + inertia * aj
  let bj' :=
    if bj > 0 then max 0 (bj - regs.L1 sqrt rowsWithJ w0 m.a * 2)
    else min 0 (bj + regs.L1 sqrt rowsWithJ w0 m.a * 2)
  if aj = 0 then 0 else bj' / aj

/-- optimizers.h `Dim1Majorizer::GetPrecision`: `a/2 + 2·L2`. -/
def GetPrecision (m : Dim1Majorizer) (sqrt : ℚ → ℚ) (regs : Regularizations)
    (rowsWithJ : ℕ) (_weight : ℚ) : ℚ :=
  m.a / 2 + regs.L2 sqrt rowsWithJ m.a * 2

end Dim1Majorizer

/-- model.h `Model`: per-J state plus loss bookkeeping.  `prev_total_loss`
and `total_loss` start at `kInfinity` (`⊤`). -/
structure Model where
  precision : List ℚ
  w : List ℚ
  delta_w : List ℚ
  loss_derivative : List ℚ
  creationTime : List ℕ
  currentCreationTime : ℕ
  prevTotalLoss : WithTop ℚ
  totalLoss : WithTop ℚ
  syncedWithWeights : Bool
  iterationNo : ℕ
  deriving DecidableEq

namespace Majorizer

/-- optimizers.h `Majorizer::GetRegularizationLoss`:
`Σ_j L1·|w_j| + L2·w_j²`. -/
def GetRegularizationLoss (ofJ : List Dim1Majorizer) (sqrt : ℚ → ℚ)
    (regs : Regularizations) (rowsWithJ : List ℕ) (model : Model) : ℚ :=
  (List.range model.w.length).foldl
    (fun loss j =>
      let w := model.w.getD j 0
      let n := rowsWithJ.getD j 0
      let a := (ofJ.getD j default).a
      loss + regs.L1 sqrt n w a * |w| + regs.L2 sqrt n a * w * w)
    0

/-- The per-J new weight computed inside `Majorizer::UpdateMinimum`'s
coordinate loop: `GetMinimum` at the current weight with inertia
`inertia_factor · Δw_prev[j]`. -/
def newWAt (ofJ : List Dim1Majorizer) (sqrt : ℚ → ℚ) (regs : Regularizations)
    (inertiaFactor stepMultiplier : ℚ) (rowsWithJ : List ℕ) (model : Model)
    (j : ℕ) : ℚ :=
  (ofJ.getD j default).GetMinimum sqrt regs (model.w.getD j 0)
    (inertiaFactor * model.delta_w.getD j 0) stepMultiplier (rowsWithJ.getD j 0)

/-- The coordinate-update loop of `Majorizer::UpdateMinimum`: new weights,
new deltas, new precisions and the dot product of the loss derivative with
the weight change. -/
def coordinateLoop (ofJ : List Dim1Majorizer) (sqrt : ℚ → ℚ)
    (regs : Regularizations) (inertiaFactor stepMultiplier : ℚ)
    (rowsWithJ : List ℕ) (model : Model) :
    List ℚ × List ℚ × List ℚ × ℚ :=
  let newW := newWAt ofJ sqrt regs inertiaFactor stepMultiplier rowsWithJ model
  ((List.range ofJ.length).map newW,
   (List.range ofJ.length).map (fun j => newW j - model.w.getD j 0),
   (List.range ofJ.length).map (fun j =>
      (ofJ.getD j default).GetPrecision sqrt regs (rowsWithJ.getD j 0)
        (model.w.getD j 0)),
   ((List.range ofJ.length).map (fun j =>
      model.loss_derivative.getD j 0 * (newW j - model.w.getD j 0))).sum)

/-- optimizers.h `Majorizer::UpdateMinimum`: flip `synced_with_weights`,
bump the iteration counter, evaluate the total loss; on an undo
(`allow_undo` and the loss regressed) revert `w` by `Δw`, zero `Δw` and set
`prev_total_loss = +∞`; otherwise run the coordinate update, then restart
(revert the step) if the loss derivative agrees in direction with the
weight change. -/
def UpdateMinimum (ofJ : List Dim1Majorizer) (logLoss : ℚ) (sqrt : ℚ → ℚ)
    (regs : Regularizations) (inertiaFactor stepMultiplier : ℚ)
    (rowsWithJ : List ℕ) (allowUndo : Bool) (model : Model) : Model :=
  let model1 := { model with syncedWithWeights := false,
                             iterationNo := model.iterationNo + 1 }
  let totalLoss := logLoss + GetRegularizationLoss ofJ sqrt regs rowsWithJ model
  if allowUndo = true ∧ model.prevTotalLoss < (totalLoss : WithTop ℚ) then
    { model1 with
        prevTotalLoss := ⊤,
        w := (List.range ofJ.length).map
          (fun j => model.w.getD j 0 - model.delta_w.getD j 0),
        delta_w := List.replicate ofJ.length 0 }
  else
    let t := coordinateLoop ofJ sqrt regs inertiaFactor stepMultiplier rowsWithJ model
    let model2 := { model1 with w := t.1, delta_w := t.2.1, precision := t.2.2.1 }
    if t.2.2.2 > 0 then
      { model2 with
          w := (List.range ofJ.length).map
            (fun j => t.1.getD j 0 - t.2.1.getD j 0),
          delta_w := List.replicate ofJ.length 0 }
    else model2

end Majorizer

theorem getD_range_map {α : Type} (f : ℕ → α) (n j : ℕ) (hj : j < n) (d : α) :
    ((List.range n).map f).getD j d = f j := by
  have hlen : j < ((List.range n).map f).length := by simpa using hj
  rw [List.getD_eq_getElem _ _ hlen, List.getElem_map, List.getElem_range]

/-- The claim's statement of the batch coordinate update, literally:
`A = a + 4·L2`, `B = a·w₀ − step_multiplier·b + inertia_factor·ΔW_prev·A`,
`B` soft-thresholded toward zero by `2·L1`, and `w_new = B/A` (zero when
`A = 0`). -/
def specBatchNewWeight (l1 l2 a b w0 deltaWPrev stepMultiplier inertiaFactor : ℚ) : ℚ :=
  let A := a + 4 * l2
  let B := a * w0 - stepMultiplier * b + inertiaFactor * deltaWPrev * A
  let Bthr := Sign B * max 0 (|B| - 2 * l1)
  if A = 0 then 0 else Bthr / A

theorem softThreshold_eq (B l1 : ℚ) (hl1 : 0 ≤ l1) :
    (if B > 0 then max 0 (B - l1 * 2) else min 0 (B + l1 * 2))
      = Sign B * max 0 (|B| - 2 * l1) := by
  rcases lt_trichotomy B 0 with h | h | h
  · have hs : Sign B = -1 := by
      simp [Sign, h, not_lt.mpr h.le]
    rw [if_neg (not_lt.mpr h.le), hs, abs_of_neg h]
    have hmm : max 0 (-B - 2 * l1) = -min 0 (B + 2 * l1) := by
      rcases le_total (B + 2 * l1) 0 with h2 | h2
      · rw [min_eq_right h2, max_eq_right (by linarith)]; ring
      · rw [min_eq_left h2, max_eq_left (by linarith)]; ring
    rw [hmm, mul_comm l1 2]
    ring
  · subst h
    have hs : Sign 0 = 0 := by simp [Sign]
    rw [if_neg (lt_irrefl 0), hs, zero_mul, zero_add,
      min_eq_left (by linarith)]
  · have hs : Sign B = 1 := by
      simp [Sign, h, not_lt.mpr h.le]
    rw [if_pos h, hs, abs_of_pos h, one_mul, mul_comm l1 2]

theorem Dim1Majorizer.GetMinimum_eq_spec (m : Dim1Majorizer) (sqrt : ℚ → ℚ)
    (regs : Regularizations) (w0 deltaWPrev stepMultiplier inertiaFactor : ℚ)
    (rowsWithJ : ℕ) (hl1 : 0 ≤ regs.L1 sqrt rowsWithJ w0 m.a) :
    m.GetMinimum sqrt regs w0 (inertiaFactor * deltaWPrev) stepMultiplier rowsWithJ
      = specBatchNewWeight (regs.L1 sqrt rowsWithJ w0 m.a)
          (regs.L2 sqrt rowsWithJ m.a) m.a m.b w0 deltaWPrev stepMultiplier
          inertiaFactor := by
  simp only [Dim1Majorizer.GetMinimum, specBatchNewWeight]
  have e1 : m.a + regs.L2 sqrt rowsWithJ m.a * 4
      = m.a + 4 * regs.L2 sqrt rowsWithJ m.a := by ring
  rw [e1, softThreshold_eq _ _ hl1]

/-- C1: in the batch coordinate update, the value written for coordinate `J`
is exactly the specification formula: `A_j = a_j + 4·L2_j`,
`B_j = a_j·w₀ − step_multiplier·b_j + inertia_factor·ΔW_prev·A_j`, `B_j`
soft-thresholded toward zero by `2·L1_j`, `w_new_j = B_j/A_j` (zero when
`A_j = 0`); and `Δw_j` is set to `w_new_j − w₀`.  (`L1_j ≥ 0` holds for any
engine-validated configuration.) -/
theorem batch_coordinate_update_formula (ofJ : List Dim1Majorizer)
    (sqrt : ℚ → ℚ) (regs : Regularizations)
    (inertiaFactor stepMultiplier : ℚ) (rowsWithJ : List ℕ) (model : Model)
    (j : ℕ) (hj : j < ofJ.length)
    (hl1 : 0 ≤ regs.L1 sqrt (rowsWithJ.getD j 0) (model.w.getD j 0)
      (ofJ.getD j default).a) :
    (Majorizer.coordinateLoop ofJ sqrt regs inertiaFactor stepMultiplier
        rowsWithJ model).1.getD j 0
      = specBatchNewWeight
          (regs.L1 sqrt (rowsWithJ.getD j 0) (model.w.getD j 0)
            (ofJ.getD j default).a)
          (regs.L2 sqrt (rowsWithJ.getD j 0) (ofJ.getD j default).a)
          (ofJ.getD j default).a (ofJ.getD j default).b (model.w.getD j 0)
          (model.delta_w.getD j 0) stepMultiplier inertiaFactor ∧
    (Majorizer.coordinateLoop ofJ sqrt regs inertiaFactor stepMultiplier
        rowsWithJ model).2.1.getD j 0
      = (Majorizer.coordinateLoop ofJ sqrt regs inertiaFactor stepMultiplier
          rowsWithJ model).1.getD j 0 - model.w.getD j 0 := by
  have h1 : (Majorizer.coordinateLoop ofJ sqrt regs inertiaFactor stepMultiplier
      rowsWithJ model).1 = (List.range ofJ.length).map
        (Majorizer.newWAt ofJ sqrt regs inertiaFactor stepMultiplier rowsWithJ
          model) := rfl
  have h2 : (Majorizer.coordinateLoop ofJ sqrt regs inertiaFactor stepMultiplier
      rowsWithJ model).2.1 = (List.range ofJ.length).map
        (fun j => Majorizer.newWAt ofJ sqrt regs inertiaFactor stepMultiplier
          rowsWithJ model j - model.w.getD j 0) := rfl
  rw [h1, h2, getD_range_map _ _ _ hj, getD_range_map _ _ _ hj]
  exact ⟨Dim1Majorizer.GetMinimum_eq_spec _ sqrt regs _ _ _ _ _ hl1,
    rfl⟩

/-- Witness for C1 at a concrete majorizer `(a, b) = (1, 2)`, weight `w₀ = 3`,
`Δw_prev = 5`, `step_multiplier = 1`, `inertia_factor = 0` and zero
regularization. -/
theorem batch_coordinate_update_formula_witness :
    (0 : ℚ) ≤ Regularizations.zero.L1 id ([(1 : ℕ)].getD 0 0)
      (([(3 : ℚ)]).getD 0 0) (([⟨1, 2⟩] : List Dim1Majorizer).getD 0 default).a ∧
    (Majorizer.coordinateLoop [⟨1, 2⟩] id Regularizations.zero 0 1 [1]
        { precision := [0], w := [3], delta_w := [5], loss_derivative := [0],
          creationTime := [0], currentCreationTime := 0, prevTotalLoss := ⊤,
          totalLoss := ⊤, syncedWithWeights := true, iterationNo := 0 }).1.getD 0 0
      = specBatchNewWeight
          (Regularizations.zero.L1 id 1 3 1) (Regularizations.zero.L2 id 1 1)
          1 2 3 5 1 0 :=
  ⟨by norm_num [Regularizations.L1, Regularizations.zero],
   (batch_coordinate_update_formula [⟨1, 2⟩] id Regularizations.zero 0 1 [1]
      { precision := [0], w := [3], delta_w := [5], loss_derivative := [0],
        creationTime := [0], currentCreationTime := 0, prevTotalLoss := ⊤,
        totalLoss := ⊤, syncedWithWeights := true, iterationNo := 0 }
      0 (by norm_num)
      (by norm_num [Regularizations.L1, Regularizations.zero])).1⟩

/-- C3: in a batch pass with `allow_undo` set, if the freshly evaluated total
loss (log loss + regularization loss) exceeds the previous iteration's total
loss then every weight is reverted by subtracting `Δw`, every `Δw` is zeroed,
`prev_total_loss` becomes `+∞` (so no later comparison against it can
trigger another undo), and the coordinate update is not applied (precision
is left untouched). -/
theorem batch_undo_on_loss_increase (ofJ : List Dim1Majorizer) (logLoss : ℚ)
    (sqrt : ℚ → ℚ) (regs : Regularizations)
    (inertiaFactor stepMultiplier : ℚ) (rowsWithJ : List ℕ) (model : Model)
    (hundo : model.prevTotalLoss
      < ((logLoss + Majorizer.GetRegularizationLoss ofJ sqrt regs rowsWithJ
            model : ℚ) : WithTop ℚ)) :
    (∀ j, j < ofJ.length →
      (Majorizer.UpdateMinimum ofJ logLoss sqrt regs inertiaFactor
          stepMultiplier rowsWithJ true model).w.getD j 0
        = model.w.getD j 0 - model.delta_w.getD j 0 ∧
      (Majorizer.UpdateMinimum ofJ logLoss sqrt regs inertiaFactor
          stepMultiplier rowsWithJ true model).delta_w.getD j 0 = 0) ∧
    (Majorizer.UpdateMinimum ofJ logLoss sqrt regs inertiaFactor
        stepMultiplier rowsWithJ true model).prevTotalLoss = ⊤ ∧
    (Majorizer.UpdateMinimum ofJ logLoss sqrt regs inertiaFactor
        stepMultiplier rowsWithJ true model).precision = model.precision ∧
    ∀ t : ℚ,
      ¬ (Majorizer.UpdateMinimum ofJ logLoss sqrt regs inertiaFactor
          stepMultiplier rowsWithJ true model).prevTotalLoss < (t : WithTop ℚ) := by
  have hbr : Majorizer.UpdateMinimum ofJ logLoss sqrt regs inertiaFactor
      stepMultiplier rowsWithJ true model
    = { model with
        syncedWithWeights := false,
        iterationNo := model.iterationNo + 1,
        prevTotalLoss := ⊤,
        w := (List.range ofJ.length).map
          (fun j => model.w.getD j 0 - model.delta_w.getD j 0),
        delta_w := List.replicate ofJ.length 0 } := by
    simp only [Majorizer.UpdateMinimum]
    rw [if_pos ⟨trivial, hundo⟩]
  rw [hbr]
  refine ⟨?_, rfl, rfl, ?_⟩
  · intro j hj
    constructor
    · exact getD_range_map _ _ _ hj _
    · show (List.replicate ofJ.length (0 : ℚ)).getD j 0 = 0
      simp [List.getD]
  · intro t
    simp

/-- A concrete model state used to witness the undo rule: one coordinate,
`w = 1`, `Δw = 1/2`, `prev_total_loss = 0`. -/
def undoWitnessModel : Model :=
  { precision := [5], w := [1], delta_w := [1 / 2], loss_derivative := [0],
    creationTime := [0], currentCreationTime := 0, prevTotalLoss := (0 : ℚ),
    totalLoss := ⊤, syncedWithWeights := true, iterationNo := 0 }

/-- Witness for C3: with zero regularization and log loss `1 > 0 =
prev_total_loss`, the undo branch fires: the weight reverts to
`1 − 1/2 = 1/2`, `Δw` becomes `0` and `prev_total_loss` becomes `+∞`. -/
theorem batch_undo_on_loss_increase_witness :
    (Majorizer.UpdateMinimum [⟨0, 0⟩] 1 id Regularizations.zero 0 1 [1] true
        undoWitnessModel).w.getD 0 0 = 1 / 2 ∧
    (Majorizer.UpdateMinimum [⟨0, 0⟩] 1 id Regularizations.zero 0 1 [1] true
        undoWitnessModel).delta_w.getD 0 0 = 0 ∧
    (Majorizer.UpdateMinimum [⟨0, 0⟩] 1 id Regularizations.zero 0 1 [1] true
        undoWitnessModel).prevTotalLoss = ⊤ := by
  have h := batch_undo_on_loss_increase [⟨0, 0⟩] 1 id Regularizations.zero 0 1
    [1] undoWitnessModel
    (by
      norm_num [undoWitnessModel, Majorizer.GetRegularizationLoss,
        Regularizations.L1, Regularizations.L2, Regularizations.zero,
        List.range_succ])
  refine ⟨?_, ?_, h.2.1⟩
  · rw [(h.1 0 (by norm_num)).1]
    norm_num [undoWitnessModel]
  · exact (h.1 0 (by norm_num)).2

/-! ## SGD optimizer (sgd.h) -/

/-- config.proto `Set::SgdLearningRateSchedule`. -/
structure SgdLearningRateSchedule where
  startLearningRate : ℚ
  decaySpeed : ℚ
  deriving Repr, DecidableEq

/-- sgd.h `Sgd::TrainingMode`. -/
inductive TrainingMode where
  | allFeatures
  | newFeatures
  deriving Repr, DecidableEq

/-- sgd.h `Sgd`: the per-J weight buffer and learning-rate state.  The
atomic-double weight vector is modelled as a plain list (the sequential
semantics of the CAS loops). -/
structure Sgd where
  weights : List ℚ
  learningRate : SgdLearningRateSchedule
  learningRateCounter : ℕ
  trainingMode : TrainingMode
  deriving Repr, DecidableEq

namespace Sgd

/-- sgd.h `Sgd::GetLearningRate`:
`start / (1 + decay_speed · (count / training_row_count))`. -/
def GetLearningRate (sgd : Sgd) (trainingRowCount : ℕ) : ℚ :=
  sgd.learningRate.startLearningRate /
    (1 + sgd.learningRate.decaySpeed *
      ((sgd.learningRateCounter : ℚ) / (trainingRowCount : ℚ)))

/-- sgd.h `Sgd::ApplyRegularization`: per J (skipping non-new features in
`NEW_FEATURES` mode) subtract `(l1·Sign(w) + 2·l2·w) · learning_rate` where
`learning_rate = GetLearningRate() / shard_count`, clipping to zero when the
sign changes.  Returns the new weight vector. -/
def ApplyRegularization (sgd : Sgd) (regs : Regularizations) (model : Model)
    (trainingRowCount numShards : ℕ) : List ℚ :=
  let learningRate := sgd.GetLearningRate trainingRowCount / (numShards : ℚ)
  let l1 := regs.regularization.l1
  let l2 := regs.regularization.l2
  (List.range model.w.length).map (fun j =>
    let oldValue := sgd.weights.getD j 0
    if sgd.trainingMode = TrainingMode.newFeatures ∧
        ¬ (model.creationTime.getD j 0 = model.currentCreationTime) then
      oldValue
    else
      let delta := (l1 * Sign oldValue + 2 * l2 * oldValue) * learningRate
      let newValue := oldValue - delta
      if Sign oldValue ≠ Sign newValue then 0 else newValue)

end Sgd

/-- The claim's formula for the SGD regularization step at learning rate
`η`: `w ← w − η·(L1·sign(w) + 2·L2·w)`, clipped to exactly zero when the
update changes the sign. -/
def specSgdRegStep (l1 l2 eta w : ℚ) : ℚ :=
  let newW := w - eta * (l1 * Sign w + 2 * l2 * w)
  if Sign w ≠ Sign newW then 0 else newW

/-- C9 (amended): the SGD per-shard regularization pass maps every eligible
J (every J in `ALL_FEATURES` mode; only fresh J's in `NEW_FEATURES` mode)
through the proximal step `w ← w − η'·(L1·sign(w) + 2·L2·w)` with
sign-change clipping, where `η'` is the current decayed learning rate
**divided by the number of training shards**; ineligible J's are left
unchanged. -/
theorem sgd_apply_regularization_spec (sgd : Sgd) (regs : Regularizations)
    (model : Model) (trainingRowCount numShards : ℕ) (j : ℕ)
    (hj : j < model.w.length) :
    (sgd.ApplyRegularization regs model trainingRowCount numShards).getD j 0
      = if sgd.trainingMode = TrainingMode.newFeatures ∧
            ¬ (model.creationTime.getD j 0 = model.currentCreationTime) then
          sgd.weights.getD j 0
        else
          specSgdRegStep regs.regularization.l1 regs.regularization.l2
            (sgd.GetLearningRate trainingRowCount / (numShards : ℚ))
            (sgd.weights.getD j 0) := by
  unfold Sgd.ApplyRegularization
  rw [getD_range_map _ _ _ hj]
  rcases Decidable.em (sgd.trainingMode = TrainingMode.newFeatures ∧
      ¬ (model.creationTime.getD j 0 = model.currentCreationTime)) with hskip | hskip
  · rw [if_pos hskip, if_pos hskip]
  · rw [if_neg hskip, if_neg hskip]
    unfold specSgdRegStep
    have harith : sgd.weights.getD j 0 -
        (regs.regularization.l1 * Sign (sgd.weights.getD j 0) +
          2 * regs.regularization.l2 * sgd.weights.getD j 0) *
            (sgd.GetLearningRate trainingRowCount / (numShards : ℚ))
      = sgd.weights.getD j 0 -
          sgd.GetLearningRate trainingRowCount / (numShards : ℚ) *
            (regs.regularization.l1 * Sign (sgd.weights.getD j 0) +
              2 * regs.regularization.l2 * sgd.weights.getD j 0) := by
      ring
    simp only [harith]

/-- Witness for C9's amended theorem at `w = 1`, `l2 = 1/4`,
`start_learning_rate = 1`, `decay = 0`, two shards: the new weight is
`1 − (1/2)·(1/2) = 3/4`. -/
theorem sgd_apply_regularization_spec_witness :
    (Sgd.ApplyRegularization
        ⟨[1], ⟨1, 0⟩, 0, TrainingMode.allFeatures⟩
        { Regularizations.zero with regularization := ⟨0, 1 / 4, 0⟩ }
        { undoWitnessModel with w := [1] } 1 2).getD 0 0 = 3 / 4 := by
  rw [sgd_apply_regularization_spec _ _ _ 1 2 0 (by norm_num [undoWitnessModel])]
  norm_num [specSgdRegStep, Sign, Sgd.GetLearningRate, undoWitnessModel,
    Regularizations.zero]

/-- Counterexample to C9 as stated: with two training shards the pass does
**not** apply the step at the current decayed learning rate `η`; at `w = 1`,
`l1 = 0`, `l2 = 1/4`, `η = 1` the claimed update would give `1/2` but the
code gives `3/4`. -/
theorem sgd_regularization_eta_counterexample :
    (Sgd.ApplyRegularization
        ⟨[1], ⟨1, 0⟩, 0, TrainingMode.allFeatures⟩
        { Regularizations.zero with regularization := ⟨0, 1 / 4, 0⟩ }
        { undoWitnessModel with w := [1] } 1 2).getD 0 0
      ≠ specSgdRegStep 0 (1 / 4)
          (Sgd.GetLearningRate ⟨[1], ⟨1, 0⟩, 0, TrainingMode.allFeatures⟩ 1) 1 := by
  norm_num [Sgd.ApplyRegularization, Sgd.GetLearningRate, specSgdRegStep, Sign,
    undoWitnessModel, Regularizations.zero, List.range_succ]

/-! ## Feature pruning (feature_pruning.cc) -/

/-- Helper lemmas about `List.set` on boolean bitsets. -/
theorem getD_set_true_self (l : List Bool) (j : ℕ) (h : j < l.length) :
    (l.set j true).getD j false = true := by
  simp [List.getD, List.getElem?_set_eq_of_lt _ h]

theorem getD_set_true_mono (l : List Bool) (j c : ℕ)
    (h : l.getD c false = true) : (l.set j true).getD c false = true := by
  rcases Decidable.em (j = c) with rfl | hne
  · have hlt : j < l.length := by
      by_contra hge
      rw [List.getD_eq_default _ _ (le_of_not_lt hge)] at h
      exact Bool.false_ne_true h
    exact getD_set_true_self l j hlt
  · simpa [List.getD, List.getElem?_set_ne hne] using h

theorem getD_set_true_cases (l : List Bool) (j c : ℕ)
    (h : (l.set j true).getD c false = true) :
    c = j ∨ l.getD c false = true := by
  rcases Decidable.em (j = c) with rfl | hne
  · exact Or.inl rfl
  · right
    simpa [List.getD, List.getElem?_set_ne hne] using h

/-- config.proto `FeaturePruning`: optional stopping conditions. -/
structure FeaturePruningConfig where
  scoreThreshold : Option ℚ
  topCount : Option ℕ
  topFraction : Option ℚ
  deriving Repr, DecidableEq

/-- `std::lround` for the nonnegative arguments used by pruning: round half
away from zero. -/
def lround (x : ℚ) : ℤ :=
  if 0 ≤ x then ⌊x + 1 / 2⌋ else -⌊-x + 1 / 2⌋

/-- The state of `FeaturePruning::ComputePruning`'s main loop: the score
min-heap, the `removed_js` bitset, the `num_removed_children` map and the
`triggered_by` map. -/
structure PruneState where
  queue : List (WithTop ℚ × ℕ)
  removed : List Bool
  numRemovedChildren : ℕ → ℕ
  triggeredBy : ℕ → List ℕ

/-- Pop of the score min-heap (`ScoreComparator` orders only by score, so
among equal scores we take the earliest element). -/
def popMin : List (WithTop ℚ × ℕ) →
    Option ((WithTop ℚ × ℕ) × List (WithTop ℚ × ℕ))
  | [] => none
  | e :: rest =>
    match popMin rest with
    | none => some (e, [])
    | some (m, rest') => if e.1 ≤ m.1 then some (e, rest) else some (m, e :: rest')

/-- The inner `while` of `ComputePruning`: advance the
`num_removed_children` cursor `k` over the suffix `l` of the dependee list
while the dependees it points at are already removed. -/
def advanceFrom (removed : List Bool) : List ℕ → ℕ → ℕ
  | [], k => k
  | d :: rest, k =>
    if removed.getD d false = true then advanceFrom removed rest (k + 1) else k

/-- feature_pruning.cc `ComputePruning` main loop (one constructor of fuel
per iteration; the source loop terminates because every pop either removes
a J for good or records it as blocked).  `jToScore` are the feature scores
(`⊤` = `kInfinity`), `dep j` is the dependees row of `j`, `featureCount`
the initial number of features. -/
def computePruningLoop (cfg : FeaturePruningConfig)
    (jToScore : List (WithTop ℚ)) (dep : ℕ → List ℕ) (featureCount : ℕ) :
    ℕ → PruneState → PruneState
  | 0, st => st
  | fuel + 1, st =>
    match popMin st.queue with
    | none => st
    | some ((score, j), rest) =>
      if score = ⊤ then st
      else if cfg.scoreThreshold.any (fun thr : ℚ => decide ((thr : WithTop ℚ) < score)) then st
      else if cfg.topCount.any (fun tc => decide (st.queue.length ≤ tc)) then st
      else if cfg.topFraction.any
          (fun tf => decide ((st.queue.length : ℤ) ≤ lround ((featureCount : ℚ) * tf))) then st
      else
        let deps := dep j
        let k := advanceFrom st.removed (deps.drop (st.numRemovedChildren j))
          (st.numRemovedChildren j)
        if k < deps.length then
          computePruningLoop cfg jToScore dep featureCount fuel
            { st with
                queue := rest,
                numRemovedChildren := Function.update st.numRemovedChildren j k,
                triggeredBy := Function.update st.triggeredBy (deps.getD k 0)
                  (st.triggeredBy (deps.getD k 0) ++ [j]) }
        else
          computePruningLoop cfg jToScore dep featureCount fuel
            { st with
                queue := rest ++ (st.triggeredBy j).map
                  (fun t => (jToScore.getD t ⊤, t)),
                removed := st.removed.set j true,
                numRemovedChildren := Function.update st.numRemovedChildren j k,
                triggeredBy := Function.update st.triggeredBy j [] }

/-- feature_pruning.cc `FeaturePruning::ComputePruning`: run the loop from
the initial state (all J's enqueued with their scores, nothing removed). -/
def ComputePruning (cfg : FeaturePruningConfig) (jToScore : List (WithTop ℚ))
    (dep : ℕ → List ℕ) (n : ℕ) (fuel : ℕ) : List Bool :=
  (computePruningLoop cfg jToScore dep n fuel
    { queue := (List.range n).map (fun j => (jToScore.getD j ⊤, j)),
      removed := List.replicate n false,
      numRemovedChildren := fun _ => 0,
      triggeredBy := fun _ => [] }).removed

/-- The loop invariant of `ComputePruning`: the `num_removed_children`
cursor of every `j` points past removed dependees only, and every removed
`j` has all its dependees removed. -/
def PruneInv (dep : ℕ → List ℕ) (st : PruneState) : Prop :=
  (∀ j, st.numRemovedChildren j ≤ (dep j).length) ∧
  (∀ j i, i < st.numRemovedChildren j →
    st.removed.getD ((dep j).getD i 0) false = true) ∧
  (∀ j, st.removed.getD j false = true →
    ∀ c ∈ dep j, st.removed.getD c false = true)

theorem advanceFrom_ge (removed : List Bool) :
    ∀ (l : List ℕ) (k : ℕ), k ≤ advanceFrom removed l k := by
  intro l
  induction l with
  | nil => intro k; exact le_refl k
  | cons d rest ih =>
    intro k
    rw [advanceFrom]
    split
    · exact le_trans (Nat.le_succ k) (ih (k + 1))
    · exact le_refl k

theorem advanceFrom_le (removed : List Bool) :
    ∀ (l : List ℕ) (k : ℕ), advanceFrom removed l k ≤ k + l.length := by
  intro l
  induction l with
  | nil => intro k; simp [advanceFrom]
  | cons d rest ih =>
    intro k
    rw [advanceFrom]
    split
    · have := ih (k + 1)
      simp only [List.length_cons]
      omega
    · simp

theorem advanceFrom_scanned (removed : List Bool) :
    ∀ (l : List ℕ) (k i : ℕ), k ≤ i → i < advanceFrom removed l k →
      removed.getD (l.getD (i - k) 0) false = true := by
  intro l
  induction l with
  | nil =>
    intro k i hki hlt
    rw [advanceFrom] at hlt
    omega
  | cons d rest ih =>
    intro k i hki hlt
    by_cases hd : removed.getD d false = true
    · rw [advanceFrom, if_pos hd] at hlt
      rcases Nat.eq_or_lt_of_le hki with rfl | hk
      · simpa using hd
      · have hrec := ih (k + 1) i hk hlt
        have hik : i - k = (i - (k + 1)) + 1 := by omega
        rw [hik, List.getD_cons_succ]
        exact hrec
    · rw [advanceFrom, if_neg hd] at hlt
      omega

theorem getD_drop (l : List ℕ) (a b : ℕ) :
    (l.drop a).getD b 0 = l.getD (a + b) 0 := by
  simp [List.getD, List.getElem?_drop]

theorem cursor_spec (dep : ℕ → List ℕ) (st : PruneState) (j : ℕ)
    (h1 : st.numRemovedChildren j ≤ (dep j).length)
    (h2 : ∀ i, i < st.numRemovedChildren j →
      st.removed.getD ((dep j).getD i 0) false = true) :
    advanceFrom st.removed ((dep j).drop (st.numRemovedChildren j))
        (st.numRemovedChildren j) ≤ (dep j).length ∧
    ∀ i, i < advanceFrom st.removed ((dep j).drop (st.numRemovedChildren j))
        (st.numRemovedChildren j) →
      st.removed.getD ((dep j).getD i 0) false = true := by
  constructor
  · have := advanceFrom_le st.removed ((dep j).drop (st.numRemovedChildren j))
      (st.numRemovedChildren j)
    rw [List.length_drop] at this
    omega
  · intro i hi
    by_cases hik : i < st.numRemovedChildren j
    · exact h2 i hik
    · have hki : st.numRemovedChildren j ≤ i := le_of_not_lt hik
      have := advanceFrom_scanned st.removed
        ((dep j).drop (st.numRemovedChildren j)) (st.numRemovedChildren j) i hki hi
      rwa [getD_drop, Nat.add_sub_cancel' hki] at this

theorem pruneLoop_inv (cfg : FeaturePruningConfig)
    (jToScore : List (WithTop ℚ)) (dep : ℕ → List ℕ) (featureCount : ℕ) :
    ∀ (fuel : ℕ) (st : PruneState), PruneInv dep st →
      PruneInv dep (computePruningLoop cfg jToScore dep featureCount fuel st) := by
  intro fuel
  induction fuel with
  | zero => intro st h; exact h
  | succ fuel ih =>
    intro st h
    obtain ⟨hc1, hc2, hrm⟩ := h
    rw [computePruningLoop]
    cases hpop : popMin st.queue with
    | none => exact ⟨hc1, hc2, hrm⟩
    | some pr =>
      obtain ⟨⟨score, j⟩, rest⟩ := pr
      simp only
      split_ifs with h1 h2 h3 h4 h5
      · exact ⟨hc1, hc2, hrm⟩
      · exact ⟨hc1, hc2, hrm⟩
      · exact ⟨hc1, hc2, hrm⟩
      · exact ⟨hc1, hc2, hrm⟩
      · -- blocked branch: j deferred, removal set unchanged
        refine ih _ ⟨?_, ?_, hrm⟩
        · intro j'
          dsimp only
          rcases Decidable.em (j' = j) with rfl | hne
          · rw [Function.update_same]
            exact (cursor_spec dep st j' (hc1 j') (fun i hi => hc2 j' i hi)).1
          · rw [Function.update_noteq hne]
            exact hc1 j'
        · intro j' i hi
          dsimp only at hi ⊢
          rcases Decidable.em (j' = j) with rfl | hne
          · rw [Function.update_same] at hi
            exact (cursor_spec dep st j' (hc1 j') (fun i hi => hc2 j' i hi)).2 i hi
          · rw [Function.update_noteq hne] at hi
            exact hc2 j' i hi
      · -- removal branch: all dependees of j are already removed
        have hall : ∀ c ∈ dep j, st.removed.getD c false = true := by
          intro c hcmem
          obtain ⟨i, hilt, hieq⟩ := List.mem_iff_getElem.mp hcmem
          have hgd : (dep j).getD i 0 = c := by
            rw [List.getD_eq_getElem _ _ hilt, hieq]
          have hik : i < advanceFrom st.removed
              ((dep j).drop (st.numRemovedChildren j)) (st.numRemovedChildren j) := by
            omega
          have := (cursor_spec dep st j (hc1 j) (fun i hi => hc2 j i hi)).2 i hik
          rwa [hgd] at this
        refine ih _ ⟨?_, ?_, ?_⟩
        · intro j'
          dsimp only
          rcases Decidable.em (j' = j) with rfl | hne
          · rw [Function.update_same]
            exact (cursor_spec dep st j' (hc1 j') (fun i hi => hc2 j' i hi)).1
          · rw [Function.update_noteq hne]
            exact hc1 j'
        · intro j' i hi
          dsimp only at hi ⊢
          rcases Decidable.em (j' = j) with rfl | hne
          · rw [Function.update_same] at hi
            exact getD_set_true_mono _ _ _
              ((cursor_spec dep st j' (hc1 j') (fun i hi => hc2 j' i hi)).2 i hi)
          · rw [Function.update_noteq hne] at hi
            exact getD_set_true_mono _ _ _ (hc2 j' i hi)
        · intro j' hj' c hcmem
          dsimp only at hj' ⊢
          rcases getD_set_true_cases _ _ _ hj' with rfl | hold
          · exact getD_set_true_mono _ _ _ (hall c hcmem)
          · exact getD_set_true_mono _ _ _ (hrm j' hold c hcmem)

/-- C5: in the removed set computed by feature pruning, no J is removed
while any of its children in the dependees graph survives: for every
removed J, all of its dependee children are also removed, for any scores,
configuration, dependees rows and fuel. -/
theorem pruning_removed_closed_under_dependees (cfg : FeaturePruningConfig)
    (jToScore : List (WithTop ℚ)) (dep : ℕ → List ℕ) (n fuel : ℕ) (j c : ℕ)
    (hj : (ComputePruning cfg jToScore dep n fuel).getD j false = true)
    (hc : c ∈ dep j) :
    (ComputePruning cfg jToScore dep n fuel).getD c false = true := by
  have hinit : PruneInv dep
      { queue := (List.range n).map (fun j => (jToScore.getD j ⊤, j)),
        removed := List.replicate n false,
        numRemovedChildren := fun _ => 0,
        triggeredBy := fun _ => [] } := by
    refine ⟨fun _ => Nat.zero_le _, fun j i hi => absurd hi (Nat.not_lt_zero i), ?_⟩
    intro j' hj'
    exfalso
    have : (List.replicate n false).getD j' false = false := by
      simp [List.getD]
    rw [this] at hj'
    exact Bool.false_ne_true hj'
  exact (pruneLoop_inv cfg jToScore dep n fuel _ hinit).2.2 j hj c hc

/-- Witness for C5: two features where feature 0 has the product 1 as its
dependee child; with no stopping conditions both get removed (0 is blocked
until 1 is removed), and the theorem instantiates to: 0 removed implies its
child 1 removed. -/
theorem pruning_removed_closed_under_dependees_witness :
    (ComputePruning ⟨none, none, none⟩ [(0 : WithTop ℚ), 0]
        (fun j => if j = 0 then [1] else []) 2 5).getD 0 false = true ∧
    (ComputePruning ⟨none, none, none⟩ [(0 : WithTop ℚ), 0]
        (fun j => if j = 0 then [1] else []) 2 5).getD 1 false = true :=
  ⟨by decide,
   pruning_removed_closed_under_dependees ⟨none, none, none⟩ [0, 0]
     (fun j => if j = 0 then [1] else []) 2 5 0 1 (by decide) (by decide)⟩

theorem popMin_mem :
    ∀ (q : List (WithTop ℚ × ℕ)) (m : WithTop ℚ × ℕ) (r : List (WithTop ℚ × ℕ)),
      popMin q = some (m, r) → m ∈ q := by
  intro q
  induction q with
  | nil =>
    intro m r h
    rw [popMin] at h
    exact Option.noConfusion h
  | cons e rest ih =>
    intro m r h
    rw [popMin] at h
    cases hpm : popMin rest with
    | none =>
      simp only [hpm, Option.some.injEq, Prod.mk.injEq] at h
      obtain ⟨rfl, rfl⟩ := h
      exact List.mem_cons_self _ _
    | some pr =>
      obtain ⟨m', r'⟩ := pr
      simp only [hpm] at h
      split at h
      · simp only [Option.some.injEq, Prod.mk.injEq] at h
        obtain ⟨rfl, rfl⟩ := h
        exact List.mem_cons_self _ _
      · simp only [Option.some.injEq, Prod.mk.injEq] at h
        obtain ⟨rfl, rfl⟩ := h
        exact List.mem_cons_of_mem e (ih _ _ hpm)

theorem popMin_rest_subset :
    ∀ (q : List (WithTop ℚ × ℕ)) (m : WithTop ℚ × ℕ) (r : List (WithTop ℚ × ℕ)),
      popMin q = some (m, r) → ∀ x ∈ r, x ∈ q := by
  intro q
  induction q with
  | nil =>
    intro m r h
    rw [popMin] at h
    exact Option.noConfusion h
  | cons e rest ih =>
    intro m r h x hx
    rw [popMin] at h
    cases hpm : popMin rest with
    | none =>
      simp only [hpm, Option.some.injEq, Prod.mk.injEq] at h
      obtain ⟨rfl, rfl⟩ := h
      exact absurd hx (List.not_mem_nil x)
    | some pr =>
      obtain ⟨m', r'⟩ := pr
      simp only [hpm] at h
      split at h
      · simp only [Option.some.injEq, Prod.mk.injEq] at h
        obtain ⟨rfl, rfl⟩ := h
        exact List.mem_cons_of_mem e hx
      · simp only [Option.some.injEq, Prod.mk.injEq] at h
        obtain ⟨rfl, rfl⟩ := h
        rcases List.mem_cons.mp hx with rfl | hx'
        · exact List.mem_cons_self _ _
        · exact List.mem_cons_of_mem e (ih _ _ hpm x hx')

/-- The score-threshold invariant: every queue entry carries the score of
its J, and every removed J has score at most the threshold. -/
def ThreshInv (jToScore : List (WithTop ℚ)) (t : ℚ) (st : PruneState) : Prop :=
  (∀ e ∈ st.queue, e.1 = jToScore.getD e.2 ⊤) ∧
  (∀ j, st.removed.getD j false = true → jToScore.getD j ⊤ ≤ (t : WithTop ℚ))

theorem pruneLoop_thresh (jToScore : List (WithTop ℚ)) (dep : ℕ → List ℕ)
    (featureCount : ℕ) (t : ℚ) (topC : Option ℕ) (topF : Option ℚ) :
    ∀ (fuel : ℕ) (st : PruneState), ThreshInv jToScore t st →
      ThreshInv jToScore t
        (computePruningLoop ⟨some t, topC, topF⟩ jToScore dep featureCount fuel st) := by
  intro fuel
  induction fuel with
  | zero => intro st h; exact h
  | succ fuel ih =>
    intro st h
    obtain ⟨hq, hr⟩ := h
    rw [computePruningLoop]
    cases hpop : popMin st.queue with
    | none => exact ⟨hq, hr⟩
    | some pr =>
      obtain ⟨⟨score, j⟩, rest⟩ := pr
      simp only
      split_ifs with h1 h2 h3 h4 h5
      · exact ⟨hq, hr⟩
      · exact ⟨hq, hr⟩
      · exact ⟨hq, hr⟩
      · exact ⟨hq, hr⟩
      · -- blocked branch
        refine ih _ ⟨?_, hr⟩
        intro e he
        exact hq e (popMin_rest_subset st.queue _ _ hpop e he)
      · -- removal branch
        have hscorele : score ≤ (t : WithTop ℚ) := by
          simp only [Option.any_some, decide_eq_true_eq] at h2
          exact le_of_not_lt h2
        have hscore : score = jToScore.getD j ⊤ :=
          hq (score, j) (popMin_mem st.queue _ _ hpop)
        refine ih _ ⟨?_, ?_⟩
        · intro e he
          dsimp only at he
          rcases List.mem_append.mp he with he' | he'
          · exact hq e (popMin_rest_subset st.queue _ _ hpop e he')
          · obtain ⟨t', _, rfl⟩ := List.mem_map.mp he'
            rfl
        · intro j' hj'
          dsimp only at hj'
          rcases getD_set_true_cases _ _ _ hj' with rfl | hold
          · rw [← hscore]
            exact hscorele
          · exact hr j' hold

/-- C7 (amended): when a `score_threshold` is configured, feature pruning
stops popping as soon as the lowest remaining score is **strictly greater**
than the threshold; consequently every removed J has score `≤` the
threshold, and a J with score strictly above the threshold is never
removed.  (A J whose score equals the threshold exactly **can** be
removed.) -/
theorem pruning_score_threshold_bound (jToScore : List (WithTop ℚ))
    (dep : ℕ → List ℕ) (n fuel : ℕ) (t : ℚ) (topC : Option ℕ)
    (topF : Option ℚ) (j : ℕ)
    (hrem : (ComputePruning ⟨some t, topC, topF⟩ jToScore dep n fuel).getD j
      false = true) :
    jToScore.getD j ⊤ ≤ (t : WithTop ℚ) := by
  have hinit : ThreshInv jToScore t
      { queue := (List.range n).map (fun j => (jToScore.getD j ⊤, j)),
        removed := List.replicate n false,
        numRemovedChildren := fun _ => 0,
        triggeredBy := fun _ => [] } := by
    constructor
    · intro e he
      obtain ⟨j', _, rfl⟩ := List.mem_map.mp he
      rfl
    · intro j' hj'
      exfalso
      have : (List.replicate n false).getD j' false = false := by
        simp [List.getD]
      rw [this] at hj'
      exact Bool.false_ne_true hj'
  exact (pruneLoop_thresh jToScore dep n t topC topF fuel _ hinit).2 j hrem

/-- Witness for C7's amended theorem: a single feature with score `0` and
threshold `1` is removed, and the theorem yields `0 ≤ 1`. -/
theorem pruning_score_threshold_bound_witness :
    ([((0 : ℚ) : WithTop ℚ)].getD 0 ⊤) ≤ ((1 : ℚ) : WithTop ℚ) :=
  pruning_score_threshold_bound [((0 : ℚ) : WithTop ℚ)] (fun _ => []) 1 2 1
    none none 0 (by decide)

/-- Counterexample to C7 as stated: the loop stops only when
`score > score_threshold` (strictly), so a J whose score **equals** the
threshold is removed — here a single feature with score `1` and
`score_threshold = 1`, no dependees, no other stopping condition. -/
theorem pruning_score_threshold_counterexample :
    (ComputePruning ⟨some 1, none, none⟩ [((1 : ℚ) : WithTop ℚ)]
        (fun _ => []) 1 2).getD 0 false = true := by
  decide

/-! ## FeatureMap / ProductMap bimap (feature_map.h) -/

/-- feature_map.h `FeatureMapBase<Feature>`: the concurrent bimap modelled
sequentially.  `entries` are the owned `FeatureAndJ` records of the hash
map in insertion order; `jSequence` is the monotone J counter
(`j_sequence_.Value()`); `jToFeature` is the dense J-indexed record vector
built by `SyncJToFeatureMap`. -/
structure FeatureMapBase (κ : Type) where
  entries : List (κ × ℕ)
  jSequence : ℕ
  jToFeature : List (Option κ)
  jToFeatureSynced : Bool

namespace FeatureMapBase

variable {κ : Type} [DecidableEq κ]

/-- feature_map.h `FeatureMapBase::FeatureToJ` (intern): return the J of an
existing record, or allocate the next J from the counter for a fresh key
(which unsyncs the J→feature view). -/
def FeatureToJ (m : FeatureMapBase κ) (k : κ) : ℕ × FeatureMapBase κ :=
  match m.entries.find? (fun e => e.1 = k) with
  | some e => (e.2, m)
  | none =>
    (m.jSequence,
     { m with entries := m.entries ++ [(k, m.jSequence)],
              jSequence := m.jSequence + 1,
              jToFeatureSynced := false })

/-- The dense J-indexed record vector `SyncJToFeatureMap` builds: start from
`next_j` empty slots and place every record with a valid J at its J. -/
def syncVector (m : FeatureMapBase κ) : List (Option κ) :=
  m.entries.foldl
    (fun v e => if e.2 ≠ kInvalidJ then v.set e.2 (some e.1) else v)
    (List.replicate m.jSequence none)

/-- feature_map.h `FeatureMapBase::SyncJToFeatureMap`: no-op when already
synced, otherwise rebuild the dense record vector. -/
def SyncJToFeatureMap (m : FeatureMapBase κ) : FeatureMapBase κ :=
  if m.jToFeatureSynced then m
  else { m with jToFeature := syncVector m, jToFeatureSynced := true }

/-- feature_map.h `FeatureMapBase::JToFeature` (after a sync). -/
def JToFeature (m : FeatureMapBase κ) (j : ℕ) : Option κ :=
  m.jToFeature.getD j none

/-- Invariant of every map reachable by interning and syncing: all assigned
J's are below the counter, the counter never passed `kInvalidJ`, records
have pairwise-distinct keys and pairwise-distinct J's, and when the map
reports itself synced the J→feature vector is the sync of its records. -/
def MapInv (m : FeatureMapBase κ) : Prop :=
  (∀ e ∈ m.entries, e.2 < m.jSequence) ∧
  m.jSequence ≤ kInvalidJ ∧
  List.Pairwise (fun a b => a.1 ≠ b.1 ∧ a.2 ≠ b.2) m.entries ∧
  (m.jToFeatureSynced = true → m.jToFeature = syncVector m)

theorem mapInv_featureToJ (m : FeatureMapBase κ) (hinv : MapInv m) (k : κ)
    (hseq : m.jSequence < kInvalidJ) : MapInv (m.FeatureToJ k).2 := by
  obtain ⟨hlt, hbound, hpw, hsv⟩ := hinv
  unfold FeatureToJ
  cases hf : m.entries.find? (fun e => e.1 = k) with
  | some e => exact ⟨hlt, hbound, hpw, hsv⟩
  | none =>
    simp only
    refine ⟨?_, ?_, ?_, ?_⟩
    swap
    · dsimp only
      omega
    · intro e he
      rcases List.mem_append.mp he with he' | he'
      · exact lt_trans (hlt e he') (Nat.lt_succ_self _)
      · rcases List.mem_singleton.mp he' with rfl
        exact Nat.lt_succ_self _
    · rw [List.pairwise_append]
      refine ⟨hpw, List.pairwise_singleton _ _, ?_⟩
      intro a ha b hb
      rcases List.mem_singleton.mp hb with rfl
      constructor
      · intro hak
        have := List.find?_eq_none.mp hf a ha
        simp only [decide_eq_true_eq] at this
        exact this hak
      · exact Nat.ne_of_lt (hlt a ha)
    · intro hfalse
      exact absurd hfalse (by simp)

theorem foldl_set_untouched (v : List (Option κ)) (i : ℕ) :
    ∀ (l : List (κ × ℕ)), (∀ e ∈ l, e.2 ≠ i) →
      (l.foldl (fun v e => if e.2 ≠ kInvalidJ then v.set e.2 (some e.1) else v)
        v).getD i none = v.getD i none := by
  intro l
  induction l generalizing v with
  | nil => intro _; rfl
  | cons e rest ih =>
    intro hne
    rw [List.foldl_cons]
    rw [ih _ (fun e' he' => hne e' (List.mem_cons_of_mem e he'))]
    split
    · have hei : e.2 ≠ i := hne e (List.mem_cons_self _ _)
      simp [List.getD, List.getElem?_set_ne hei]
    · rfl

theorem foldl_set_found (v : List (Option κ)) :
    ∀ (l : List (κ × ℕ)), List.Pairwise (fun a b => a.1 ≠ b.1 ∧ a.2 ≠ b.2) l →
      (∀ e ∈ l, e.2 < v.length ∧ e.2 ≠ kInvalidJ) →
      ∀ e ∈ l,
        (l.foldl (fun v e => if e.2 ≠ kInvalidJ then v.set e.2 (some e.1) else v)
          v).getD e.2 none = some e.1 := by
  intro l
  induction l generalizing v with
  | nil => intro _ _ e he; exact absurd he (List.not_mem_nil e)
  | cons e0 rest ih =>
    intro hpw hok e he
    rw [List.foldl_cons]
    rcases List.mem_cons.mp he with rfl | he'
    · have h0 := hok e (List.mem_cons_self _ _)
      rw [foldl_set_untouched _ _ rest
        (fun e' he' => ((List.pairwise_cons.mp hpw).1 e' he').2.symm)]
      rw [if_pos h0.2]
      simp [List.getD, List.getElem?_set_eq_of_lt _ h0.1]
    · refine ih _ (List.pairwise_cons.mp hpw).2 ?_ e he'
      intro e' he''
      have h' := hok e' (List.mem_cons_of_mem e0 he'')
      split
      · rw [List.length_set]
        exact h'
      · exact h'

/-- C10, first half: for every key `k` interned into a well-formed map
whose J counter has not overflowed, after a sync the J→key lookup of
`intern(k)`'s J returns `k`. -/
theorem intern_sync_lookup (m : FeatureMapBase κ) (k : κ) (hinv : MapInv m)
    (hseq : m.jSequence < kInvalidJ) :
    ((m.FeatureToJ k).2.SyncJToFeatureMap).JToFeature (m.FeatureToJ k).1
      = some k := by
  obtain ⟨hlt', hbound', hpw', hsv'⟩ := mapInv_featureToJ m hinv k hseq
  have hmem : (k, (m.FeatureToJ k).1) ∈ (m.FeatureToJ k).2.entries := by
    unfold FeatureToJ
    cases hf : m.entries.find? (fun e => e.1 = k) with
    | some e =>
      have hk : e.1 = k := by
        have := List.find?_some hf
        simpa using this
      have := List.mem_of_find?_eq_some hf
      simp only
      rw [← hk]
      exact this
    | none => simp
  have hvec : ((m.FeatureToJ k).2.SyncJToFeatureMap).jToFeature
      = syncVector (m.FeatureToJ k).2 := by
    unfold SyncJToFeatureMap
    split
    · exact hsv' (by assumption)
    · rfl
  unfold JToFeature
  rw [hvec]
  have := foldl_set_found (List.replicate (m.FeatureToJ k).2.jSequence none)
    (m.FeatureToJ k).2.entries hpw'
    (by
      intro e he
      refine ⟨?_, ?_⟩
      · rw [List.length_replicate]
        exact hlt' e he
      · exact Nat.ne_of_lt (lt_of_lt_of_le (hlt' e he) hbound'))
    (k, (m.FeatureToJ k).1) hmem
  exact this

theorem find?_append_none {α : Type} (p : α → Bool) (l1 l2 : List α)
    (h : l1.find? p = none) : (l1 ++ l2).find? p = l2.find? p := by
  induction l1 with
  | nil => rfl
  | cons a l ih =>
    rw [List.cons_append]
    by_cases hpa : p a = true
    · rw [List.find?_cons_of_pos _ hpa] at h
      exact Option.noConfusion h
    · rw [List.find?_cons_of_neg _ (by simpa using hpa)] at h
      rw [List.find?_cons_of_neg _ (by simpa using hpa)]
      exact ih h

theorem find?_append_some {α : Type} (p : α → Bool) (l1 l2 : List α)
    (a : α) (h : l1.find? p = some a) : (l1 ++ l2).find? p = some a := by
  induction l1 with
  | nil => exact Option.noConfusion h
  | cons b l ih =>
    rw [List.cons_append]
    by_cases hpb : p b = true
    · rw [List.find?_cons_of_pos _ hpb] at h ⊢
      exact h
    · rw [List.find?_cons_of_neg _ (by simpa using hpb)] at h ⊢
      exact ih h

/-- C10, second half: interning `k₁` and then `k₂` yields the same J
exactly when the keys are equal. -/
theorem intern_inj (m : FeatureMapBase κ) (k1 k2 : κ) (hinv : MapInv m)
    (hseq : m.jSequence + 1 < kInvalidJ) :
    (((m.FeatureToJ k1).2).FeatureToJ k2).1 = (m.FeatureToJ k1).1 ↔ k1 = k2 := by
  obtain ⟨hlt, hbound, hpw, hsv⟩ := hinv
  have hpairs : ∀ a ∈ m.entries, ∀ b ∈ m.entries, a ≠ b → a.1 ≠ b.1 ∧ a.2 ≠ b.2 := by
    intro a ha b hb hne
    exact List.Pairwise.forall (fun x y h => ⟨h.1.symm, h.2.symm⟩) hpw ha hb hne
  unfold FeatureToJ
  cases hf1 : m.entries.find? (fun e => e.1 = k1) with
  | some e1 =>
    have hk1 : e1.1 = k1 := by simpa using List.find?_some hf1
    have he1 : e1 ∈ m.entries := List.mem_of_find?_eq_some hf1
    simp only
    cases hf2 : m.entries.find? (fun e => e.1 = k2) with
    | some e2 =>
      have hk2 : e2.1 = k2 := by simpa using List.find?_some hf2
      have he2 : e2 ∈ m.entries := List.mem_of_find?_eq_some hf2
      simp only
      constructor
      · intro hj
        by_contra hkne
        have hene : e2 ≠ e1 := by
          intro he
          exact hkne (hk1 ▸ hk2 ▸ he ▸ rfl)
        exact (hpairs e2 he2 e1 he1 hene).2 hj
      · intro hk
        subst hk
        rw [hf1] at hf2
        rw [(Option.some.injEq _ _).mp hf2]
    | none =>
      simp only
      constructor
      · intro hj
        exact absurd hj (Nat.ne_of_gt (hlt e1 he1))
      · intro hk
        subst hk
        have := List.find?_eq_none.mp hf2 e1 he1
        simp only [decide_eq_true_eq] at this
        exact absurd hk1 this
  | none =>
    simp only
    rcases Decidable.em (k2 = k1) with rfl | hkne
    · have hfind : (m.entries ++ [(k2, m.jSequence)]).find?
          (fun e => e.1 = k2) = some (k2, m.jSequence) := by
        rw [find?_append_none _ _ _ hf1, List.find?_cons]
        split
        · rfl
        · simp_all
      rw [hfind]
      simp
    · cases hf2 : m.entries.find? (fun e => e.1 = k2) with
      | some e2 =>
        have he2 : e2 ∈ m.entries := List.mem_of_find?_eq_some hf2
        have hfind : (m.entries ++ [(k1, m.jSequence)]).find?
            (fun e => e.1 = k2) = some e2 := find?_append_some _ _ _ _ hf2
        rw [hfind]
        simp only
        constructor
        · intro hj
          exact absurd hj (Nat.ne_of_lt (hlt e2 he2))
        · intro hk
          exact absurd hk.symm hkne
      | none =>
        have hfind : (m.entries ++ [(k1, m.jSequence)]).find?
            (fun e => e.1 = k2) = none := by
          rw [find?_append_none _ _ _ hf2]
          rw [List.find?_cons_of_neg _
            (by simp only [decide_eq_true_eq]; exact fun h => hkne h.symm)]
          rfl
        rw [hfind]
        simp only
        constructor
        · intro hj
          omega
        · intro hk
          exact absurd hk.symm hkne

end FeatureMapBase

/-- C10: the bimap round-trip and injectivity law, stated over an arbitrary
well-formed map: after a sync, the J→key lookup of `intern(k)` returns `k`
for every interned (and never removed) key `k`, and two interns agree on
their J exactly when the keys agree. -/
theorem feature_map_bimap_laws (m : FeatureMapBase ℕ) (k k1 k2 : ℕ)
    (hinv : FeatureMapBase.MapInv m) (hseq : m.jSequence + 1 < kInvalidJ) :
    ((m.FeatureToJ k).2.SyncJToFeatureMap).JToFeature (m.FeatureToJ k).1
      = some k ∧
    ((((m.FeatureToJ k1).2).FeatureToJ k2).1 = (m.FeatureToJ k1).1 ↔ k1 = k2) :=
  ⟨FeatureMapBase.intern_sync_lookup m k hinv (by omega),
   FeatureMapBase.intern_inj m k1 k2 hinv hseq⟩

/-- Witness for C10 at the empty map with keys `7`, `7` and `8`: interning
`7` then looking it up after a sync returns `7`; interning `7` twice gives
the same J, and interning `8` after `7` gives a different J. -/
theorem feature_map_bimap_laws_witness :
    (((FeatureMapBase.mk ([] : List (ℕ × ℕ)) 0 [] true).FeatureToJ 7).2.SyncJToFeatureMap).JToFeature
        ((FeatureMapBase.mk ([] : List (ℕ × ℕ)) 0 [] true).FeatureToJ 7).1 = some 7 ∧
    ¬ ((((FeatureMapBase.mk ([] : List (ℕ × ℕ)) 0 [] true).FeatureToJ 7).2.FeatureToJ 8).1
        = ((FeatureMapBase.mk ([] : List (ℕ × ℕ)) 0 [] true).FeatureToJ 7).1) := by
  have h := feature_map_bimap_laws (FeatureMapBase.mk ([] : List (ℕ × ℕ)) 0 [] true)
    7 7 8
    (by
      refine ⟨?_, ?_, ?_, ?_⟩
      · intro e he; exact absurd he (List.not_mem_nil e)
      · decide
      · exact List.Pairwise.nil
      · intro _; rfl)
    (by decide)
  exact ⟨h.1, fun hc => by simpa using h.2.mp hc⟩

/-! ## PrioritySumIterator (range.h) and exploration pair order -/

/-- An element of the iterator's `priority_queue`: the pair sum and the two
positions `(row, column)` into the score-sorted vector. -/
abbrev PsiEntry : Type := ℚ × ℕ × ℕ

/-- The C++ `std::pair` lexicographic order on heap entries, as a Bool. -/
def psiLtb (a b : PsiEntry) : Bool :=
  decide (a.1 < b.1) ||
    (decide (a.1 = b.1) &&
      (decide (a.2.1 < b.2.1) ||
        (decide (a.2.1 = b.2.1) && decide (a.2.2 < b.2.2))))

/-- Pop of the `std::priority_queue` max-heap: the lexicographically largest
entry. -/
def popMax : List PsiEntry → Option (PsiEntry × List PsiEntry)
  | [] => none
  | e :: rest =>
    match popMax rest with
    | none => some (e, [])
    | some (m, rest') =>
      if psiLtb e m then some (m, e :: rest') else some (e, rest)

/-- range.h `PrioritySumIterator::InsertNext`: advance the column of a
position pair and, if still in range, push the successor with its pair
sum. -/
def psiInsertNext (v : List (ℚ × ℕ)) (p : ℕ × ℕ) (pq : List PsiEntry) :
    List PsiEntry :=
  if v.length ≤ p.2 + 1 then pq
  else pq ++ [((v.getD p.1 (0, 0)).1 + (v.getD (p.2 + 1) (0, 0)).1, p.1, p.2 + 1)]

/-- range.h `PrioritySumIterator` constructor: seed the heap with
`InsertNext (j, j)` for every row `j`. -/
def psiInit (v : List (ℚ × ℕ)) : List PsiEntry :=
  (List.range v.length).foldl (fun pq j => psiInsertNext v (j, j) pq) []

/-- Repeated `Next()`: pop the max entry, push its successor and record the
popped `(sum, row, column)`. -/
def psiRun (v : List (ℚ × ℕ)) : ℕ → List PsiEntry → List PsiEntry
  | 0, _ => []
  | fuel + 1, pq =>
    match popMax pq with
    | none => []
    | some (e, rest) => e :: psiRun v fuel (psiInsertNext v e.2 rest)

/-- The sequence of `(sum, row, column)` triples the iterator pops. -/
def PrioritySumIterator (v : List (ℚ × ℕ)) (fuel : ℕ) : List PsiEntry :=
  psiRun v fuel (psiInit v)

/-- The candidate J pairs as `FeatureExploration::AddNewProductFeatures`
sees them: the T values at the popped positions, swapped into ascending
order (`if (j_pair.first > j_pair.second) std::swap(...)`). -/
def explorationPairs (v : List (ℚ × ℕ)) (fuel : ℕ) : List (ℕ × ℕ) :=
  (PrioritySumIterator v fuel).map (fun e =>
    let j1 := (v.getD e.2.1 (0, 0)).2
    let j2 := (v.getD e.2.2 (0, 0)).2
    if j2 < j1 then (j2, j1) else (j1, j2))

/-- Well-formedness of the iterator's heap: every entry is a strictly
ascending in-range position pair carrying its pair sum. -/
def HeapInv (v : List (ℚ × ℕ)) (pq : List PsiEntry) : Prop :=
  ∀ e ∈ pq, e.2.1 < e.2.2 ∧ e.2.2 < v.length ∧
    e.1 = (v.getD e.2.1 (0, 0)).1 + (v.getD e.2.2 (0, 0)).1

theorem psiLtb_false_le (a b : PsiEntry) (h : psiLtb a b = false) : b.1 ≤ a.1 := by
  unfold psiLtb at h
  simp only [Bool.or_eq_false_iff, decide_eq_false_iff_not] at h
  exact le_of_not_lt h.1

theorem popMax_none (q : List PsiEntry) : popMax q = none → q = [] := by
  cases q with
  | nil => intro _; rfl
  | cons e rest =>
    intro h
    rw [popMax] at h
    cases hpm : popMax rest with
    | none => simp [hpm] at h
    | some pr =>
      obtain ⟨m, r'⟩ := pr
      simp only [hpm] at h
      split at h
      · exact Option.noConfusion h
      · exact Option.noConfusion h

theorem popMax_mem :
    ∀ (q : List PsiEntry) (m : PsiEntry) (r : List PsiEntry),
      popMax q = some (m, r) → m ∈ q := by
  intro q
  induction q with
  | nil =>
    intro m r h
    rw [popMax] at h
    exact Option.noConfusion h
  | cons e rest ih =>
    intro m r h
    rw [popMax] at h
    cases hpm : popMax rest with
    | none =>
      simp only [hpm, Option.some.injEq, Prod.mk.injEq] at h
      obtain ⟨rfl, rfl⟩ := h
      exact List.mem_cons_self _ _
    | some pr =>
      obtain ⟨m', r'⟩ := pr
      simp only [hpm] at h
      split at h
      · simp only [Option.some.injEq, Prod.mk.injEq] at h
        obtain ⟨rfl, rfl⟩ := h
        exact List.mem_cons_of_mem e (ih _ _ hpm)
      · simp only [Option.some.injEq, Prod.mk.injEq] at h
        obtain ⟨rfl, rfl⟩ := h
        exact List.mem_cons_self _ _

theorem popMax_rest_subset :
    ∀ (q : List PsiEntry) (m : PsiEntry) (r : List PsiEntry),
      popMax q = some (m, r) → ∀ x ∈ r, x ∈ q := by
  intro q
  induction q with
  | nil =>
    intro m r h
    rw [popMax] at h
    exact Option.noConfusion h
  | cons e rest ih =>
    intro m r h x hx
    rw [popMax] at h
    cases hpm : popMax rest with
    | none =>
      simp only [hpm, Option.some.injEq, Prod.mk.injEq] at h
      obtain ⟨rfl, rfl⟩ := h
      exact absurd hx (List.not_mem_nil x)
    | some pr =>
      obtain ⟨m', r'⟩ := pr
      simp only [hpm] at h
      split at h
      · simp only [Option.some.injEq, Prod.mk.injEq] at h
        obtain ⟨rfl, rfl⟩ := h
        rcases List.mem_cons.mp hx with rfl | hx'
        · exact List.mem_cons_self _ _
        · exact List.mem_cons_of_mem e (ih _ _ hpm x hx')
      · simp only [Option.some.injEq, Prod.mk.injEq] at h
        obtain ⟨rfl, rfl⟩ := h
        exact List.mem_cons_of_mem e hx

theorem popMax_max :
    ∀ (q : List PsiEntry) (m : PsiEntry) (r : List PsiEntry),
      popMax q = some (m, r) → ∀ x ∈ q, x.1 ≤ m.1 := by
  intro q
  induction q with
  | nil =>
    intro m r h
    rw [popMax] at h
    exact Option.noConfusion h
  | cons e rest ih =>
    intro m r h x hx
    rw [popMax] at h
    cases hpm : popMax rest with
    | none =>
      have : rest = [] := popMax_none rest hpm
      subst this
      simp only [hpm, Option.some.injEq, Prod.mk.injEq] at h
      obtain ⟨rfl, rfl⟩ := h
      rcases List.mem_cons.mp hx with rfl | hx'
      · exact le_refl _
      · exact absurd hx' (List.not_mem_nil x)
    | some pr =>
      obtain ⟨m', r'⟩ := pr
      simp only [hpm] at h
      split at h
      · simp only [Option.some.injEq, Prod.mk.injEq] at h
        obtain ⟨rfl, rfl⟩ := h
        rcases List.mem_cons.mp hx with rfl | hx'
        · rename_i hlt
          unfold psiLtb at hlt
          simp only [Bool.or_eq_true, Bool.and_eq_true, decide_eq_true_eq] at hlt
          rcases hlt with h1 | ⟨h1, _⟩
          · exact le_of_lt h1
          · exact le_of_eq h1
        · exact ih _ _ hpm x hx'
      · simp only [Option.some.injEq, Prod.mk.injEq] at h
        obtain ⟨rfl, rfl⟩ := h
        rcases List.mem_cons.mp hx with rfl | hx'
        · exact le_refl _
        · rename_i hnlt
          have := psiLtb_false_le _ _ (Bool.of_not_eq_true hnlt)
          exact le_trans (ih _ _ hpm x hx') this

theorem psiInsertNext_mem (v : List (ℚ × ℕ)) (p : ℕ × ℕ)
    (pq : List PsiEntry) (x : PsiEntry) (hx : x ∈ psiInsertNext v p pq) :
    x ∈ pq ∨ (p.2 + 1 < v.length ∧
      x = ((v.getD p.1 (0, 0)).1 + (v.getD (p.2 + 1) (0, 0)).1, p.1, p.2 + 1)) := by
  unfold psiInsertNext at hx
  split at hx
  · exact Or.inl hx
  · rcases List.mem_append.mp hx with hx' | hx'
    · exact Or.inl hx'
    · rcases List.mem_singleton.mp hx' with rfl
      exact Or.inr ⟨by omega, rfl⟩

theorem heapInv_insertNext (v : List (ℚ × ℕ)) (p : ℕ × ℕ)
    (pq : List PsiEntry) (hp : p.1 ≤ p.2) (hinv : HeapInv v pq) :
    HeapInv v (psiInsertNext v p pq) := by
  intro x hx
  rcases psiInsertNext_mem v p pq x hx with hx' | ⟨hlen, rfl⟩
  · exact hinv x hx'
  · dsimp only
    exact ⟨by omega, hlen, rfl⟩

theorem heapInv_init (v : List (ℚ × ℕ)) : HeapInv v (psiInit v) := by
  unfold psiInit
  have hstep : ∀ (l : List ℕ) (pq : List PsiEntry), HeapInv v pq →
      HeapInv v (l.foldl (fun pq j => psiInsertNext v (j, j) pq) pq) := by
    intro l
    induction l with
    | nil => intro pq h; exact h
    | cons j rest ih =>
      intro pq h
      rw [List.foldl_cons]
      exact ih _ (heapInv_insertNext v (j, j) pq (le_refl j) h)
  exact hstep _ [] (fun x hx => absurd hx (List.not_mem_nil x))

theorem successor_sum_le (v : List (ℚ × ℕ))
    (hsorted : ∀ i j : ℕ, i ≤ j → j < v.length →
      (v.getD j (0, 0)).1 ≤ (v.getD i (0, 0)).1)
    (r c : ℕ) (hrc : r < c) (hc1 : c + 1 < v.length) :
    (v.getD r (0, 0)).1 + (v.getD (c + 1) (0, 0)).1
      ≤ (v.getD r (0, 0)).1 + (v.getD c (0, 0)).1 :=
  add_le_add_left (hsorted c (c + 1) (Nat.le_succ c) hc1) _

theorem psiRun_le (v : List (ℚ × ℕ))
    (hsorted : ∀ i j : ℕ, i ≤ j → j < v.length →
      (v.getD j (0, 0)).1 ≤ (v.getD i (0, 0)).1) :
    ∀ (fuel : ℕ) (pq : List PsiEntry) (b : ℚ), HeapInv v pq →
      (∀ x ∈ pq, x.1 ≤ b) → ∀ e ∈ psiRun v fuel pq, e.1 ≤ b := by
  intro fuel
  induction fuel with
  | zero => intro pq b _ _ e he; exact absurd he (List.not_mem_nil e)
  | succ fuel ih =>
    intro pq b hinv hb e he
    rw [psiRun] at he
    cases hpop : popMax pq with
    | none => simp [hpop] at he
    | some pr =>
      obtain ⟨m, rest⟩ := pr
      simp only [hpop] at he
      rcases List.mem_cons.mp he with rfl | he'
      · exact hb e (popMax_mem pq e rest hpop)
      · have hminv := hinv m (popMax_mem pq m rest hpop)
        refine ih (psiInsertNext v m.2 rest) b ?_ ?_ e he'
        · exact heapInv_insertNext v m.2 rest (le_of_lt hminv.1)
            (fun x hx => hinv x (popMax_rest_subset pq m rest hpop x hx))
        · intro x hx
          rcases psiInsertNext_mem v m.2 rest x hx with hx' | ⟨hlen, rfl⟩
          · exact hb x (popMax_rest_subset pq m rest hpop x hx')
          · calc (v.getD m.2.1 (0, 0)).1 + (v.getD (m.2.2 + 1) (0, 0)).1
                ≤ (v.getD m.2.1 (0, 0)).1 + (v.getD m.2.2 (0, 0)).1 :=
                  successor_sum_le v hsorted _ _ hminv.1 hlen
              _ = m.1 := hminv.2.2.symm
              _ ≤ b := hb m (popMax_mem pq m rest hpop)

theorem psiRun_shape (v : List (ℚ × ℕ)) :
    ∀ (fuel : ℕ) (pq : List PsiEntry), HeapInv v pq →
      ∀ e ∈ psiRun v fuel pq, e.2.1 < e.2.2 ∧ e.2.2 < v.length ∧
        e.1 = (v.getD e.2.1 (0, 0)).1 + (v.getD e.2.2 (0, 0)).1 := by
  intro fuel
  induction fuel with
  | zero => intro pq _ e he; exact absurd he (List.not_mem_nil e)
  | succ fuel ih =>
    intro pq hinv e he
    rw [psiRun] at he
    cases hpop : popMax pq with
    | none => simp [hpop] at he
    | some pr =>
      obtain ⟨m, rest⟩ := pr
      simp only [hpop] at he
      rcases List.mem_cons.mp he with rfl | he'
      · exact hinv e (popMax_mem pq e rest hpop)
      · have hminv := hinv m (popMax_mem pq m rest hpop)
        exact ih (psiInsertNext v m.2 rest)
          (heapInv_insertNext v m.2 rest (le_of_lt hminv.1)
            (fun x hx => hinv x (popMax_rest_subset pq m rest hpop x hx)))
          e he'

theorem psiRun_pairwise (v : List (ℚ × ℕ))
    (hsorted : ∀ i j : ℕ, i ≤ j → j < v.length →
      (v.getD j (0, 0)).1 ≤ (v.getD i (0, 0)).1) :
    ∀ (fuel : ℕ) (pq : List PsiEntry), HeapInv v pq →
      List.Pairwise (fun a b : PsiEntry => b.1 ≤ a.1) (psiRun v fuel pq) := by
  intro fuel
  induction fuel with
  | zero => intro pq _; exact List.Pairwise.nil
  | succ fuel ih =>
    intro pq hinv
    rw [psiRun]
    cases hpop : popMax pq with
    | none => exact List.Pairwise.nil
    | some pr =>
      obtain ⟨m, rest⟩ := pr
      simp only
      have hminv := hinv m (popMax_mem pq m rest hpop)
      have hinv' : HeapInv v (psiInsertNext v m.2 rest) :=
        heapInv_insertNext v m.2 rest (le_of_lt hminv.1)
          (fun x hx => hinv x (popMax_rest_subset pq m rest hpop x hx))
      refine List.pairwise_cons.mpr ⟨?_, ih _ hinv'⟩
      intro y hy
      refine psiRun_le v hsorted fuel _ m.1 hinv' ?_ y hy
      intro x hx
      rcases psiInsertNext_mem v m.2 rest x hx with hx' | ⟨hlen, rfl⟩
      · exact popMax_max pq m rest hpop x
          (popMax_rest_subset pq m rest hpop x hx')
      · calc (v.getD m.2.1 (0, 0)).1 + (v.getD (m.2.2 + 1) (0, 0)).1
            ≤ (v.getD m.2.1 (0, 0)).1 + (v.getD m.2.2 (0, 0)).1 :=
              successor_sum_le v hsorted _ _ hminv.1 hlen
          _ = m.1 := hminv.2.2.symm

/-- C8 (amended): on a score vector sorted from largest to smallest with
pairwise-distinct T values, the exploration pair iterator yields position
pairs `(row, col)` with `row < col < |v|`, each popped entry carries the
pair sum `score[row] + score[col]`, the popped sums are non-increasing
along the whole run, and the candidate J pairs (after the caller's swap)
satisfy `j1 < j2`.  Pairs of equal sum are **not** in general yielded in
ascending `(j1, j2)` order. -/
theorem priority_sum_iterator_spec (v : List (ℚ × ℕ)) (fuel : ℕ)
    (hsorted : ∀ i j : ℕ, i ≤ j → j < v.length →
      (v.getD j (0, 0)).1 ≤ (v.getD i (0, 0)).1)
    (hnodup : (v.map Prod.snd).Nodup) :
    (∀ e ∈ PrioritySumIterator v fuel, e.2.1 < e.2.2 ∧ e.2.2 < v.length ∧
      e.1 = (v.getD e.2.1 (0, 0)).1 + (v.getD e.2.2 (0, 0)).1) ∧
    List.Pairwise (fun a b : PsiEntry => b.1 ≤ a.1)
      (PrioritySumIterator v fuel) ∧
    (∀ p ∈ explorationPairs v fuel, p.1 < p.2) := by
  refine ⟨psiRun_shape v fuel _ (heapInv_init v), 
    psiRun_pairwise v hsorted fuel _ (heapInv_init v), ?_⟩
  intro p hp
  obtain ⟨e, he, rfl⟩ := List.mem_map.mp hp
  obtain ⟨hrc, hclen, _⟩ := psiRun_shape v fuel _ (heapInv_init v) e he
  have hrlen : e.2.1 < v.length := lt_trans hrc hclen
  have hne : (v.getD e.2.1 (0, 0)).2 ≠ (v.getD e.2.2 (0, 0)).2 := by
    intro heq
    rw [List.getD_eq_getElem _ _ hrlen, List.getD_eq_getElem _ _ hclen] at heq
    have h1 : (v.map Prod.snd).get (Fin.mk e.2.1 (by simpa using hrlen))
        = (v.map Prod.snd).get (Fin.mk e.2.2 (by simpa using hclen)) := by
      simp only [List.get_eq_getElem, List.getElem_map]
      exact heq
    have h2 := (List.Nodup.get_inj_iff hnodup).mp h1
    have h3 : e.2.1 = e.2.2 := congrArg Fin.val h2
    omega
  dsimp only
  split
  · omega
  · rename_i hnlt
    push_neg at hnlt
    omega

/-- Witness for C8's amended theorem at the score-sorted vector
`[(0,2), (0,1), (0,0)]` (three features of equal score, J values 2, 1, 0):
the popped sums are non-increasing and every candidate pair is strictly
ascending. -/
theorem priority_sum_iterator_spec_witness :
    List.Pairwise (fun a b : PsiEntry => b.1 ≤ a.1)
      (PrioritySumIterator [((0 : ℚ), 2), (0, 1), (0, 0)] 3) ∧
    ∀ p ∈ explorationPairs [((0 : ℚ), 2), (0, 1), (0, 0)] 3, p.1 < p.2 :=
  have h := priority_sum_iterator_spec [((0 : ℚ), 2), (0, 1), (0, 0)] 3
    (by
      intro i j hij hjlt
      have hval : ∀ k : ℕ,
          (([((0 : ℚ), 2), (0, 1), (0, 0)]).getD k (0, 0)).1 = 0 := by
        intro k
        rcases k with _ | _ | _ | k <;> rfl
      rw [hval i, hval j])
    (by decide)
  ⟨h.2.1, h.2.2⟩

/-- Counterexample to C8 as stated: on three equally-scored features (J
values 2, 1, 0 after the descending `(score, j)` sort), all three candidate
pair sums are equal, yet the pairs come out as `(0,1), (1,2), (0,2)` —
`(1,2)` is yielded before `(0,2)` although `(0,2) < (1,2)`
lexicographically, so equal-sum pairs are not yielded in ascending
`(j₁, j₂)` order. -/
theorem exploration_tie_order_counterexample :
    explorationPairs [((0 : ℚ), 2), (0, 1), (0, 0)] 3
      = [(0, 1), (1, 2), (0, 2)] ∧
    (PrioritySumIterator [((0 : ℚ), 2), (0, 1), (0, 0)] 3).map Prod.fst
      = [0, 0, 0] ∧
    ¬ ((1 : ℕ) < 0 ∨ ((1 : ℕ) = 0 ∧ (2 : ℕ) < 2)) :=
  ⟨by
    norm_num [explorationPairs, PrioritySumIterator, psiRun, psiInit,
      psiInsertNext, popMax, psiLtb, List.range_succ],
   by
    norm_num [PrioritySumIterator, psiRun, psiInit,
      psiInsertNext, popMax, psiLtb, List.range_succ],
   by decide⟩

/-! ## CSR matrix, data store and the World renumbering choke point
(csr_matrix.h, data.h, world.cc) -/

/-- csr_matrix.h `CsrMatrix`, viewed through `GetRow`: the list of rows. -/
structure CsrMatrix where
  rows : List (List ℕ)
  deriving Repr, DecidableEq

namespace CsrMatrix

/-- csr_matrix.h `CsrMatrix::RemoveAndRenumberJs`: drop removed J's from
every row and renumber the rest (no-op on an empty renumbering). -/
def RemoveAndRenumberJs (r : JRenumbering) (m : CsrMatrix) : CsrMatrix :=
  if r.jToNewJ.isEmpty then m
  else ⟨m.rows.map r.removeAndRenumberJsTo⟩

/-- csr_matrix.h `CsrMatrix::RemoveAndRenumberRows`: rebuild the matrix
taking the old row of every surviving J in new-J order. -/
def RemoveAndRenumberRows (r : JRenumbering) (m : CsrMatrix) : CsrMatrix :=
  if r.jToNewJ.isEmpty then m
  else ⟨(r.newJToOldJ).map (fun oldJ => m.rows.getD oldJ [])⟩

end CsrMatrix

/-- data.h `Stats`: per-J positive/negative counts and the per-J row-id
hash. -/
structure Stats where
  positive : List ℕ
  negative : List ℕ
  hash : List ℕ
  deriving Repr, DecidableEq

/-- data.h `Stats::RemoveAndRenumberJs`. -/
def Stats.RemoveAndRenumberJs (r : JRenumbering) (s : Stats) : Stats :=
  ⟨r.renumberIndicies 0 s.positive, r.renumberIndicies 0 s.negative,
   r.renumberIndicies 0 s.hash⟩

/-- data.h `Shard`: rows plus parallel label / id vectors (labels as ±1
rationals). -/
structure Shard where
  rows : CsrMatrix
  ys : List ℚ
  ids : List ℕ
  deriving Repr, DecidableEq

/-- data.h `Shard::RemoveAndRenumberJs`: only the row contents change. -/
def Shard.RemoveAndRenumberJs (r : JRenumbering) (s : Shard) : Shard :=
  { s with rows := s.rows.RemoveAndRenumberJs r }

/-- data.h `ShardSet`. -/
structure ShardSet where
  shards : List Shard
  stats : Stats
  deriving Repr, DecidableEq

/-- data.h `ShardSet::RemoveAndRenumberJs`. -/
def ShardSet.RemoveAndRenumberJs (r : JRenumbering) (ss : ShardSet) : ShardSet :=
  ⟨ss.shards.map (Shard.RemoveAndRenumberJs r), ss.stats.RemoveAndRenumberJs r⟩

/-- data.h `Data`: training and holdout shard sets plus the dependees
matrix. -/
structure Data where
  training : ShardSet
  holdout : ShardSet
  dependees : CsrMatrix
  deriving Repr, DecidableEq

/-- data.h `Data::RemoveAndRenumberJs` with
`Data::RemoveAndRenumberDependees`: renumber both shard sets, then the
dependees contents and row indices. -/
def Data.RemoveAndRenumberJs (r : JRenumbering) (d : Data) : Data :=
  ⟨d.training.RemoveAndRenumberJs r, d.holdout.RemoveAndRenumberJs r,
   if r.jToNewJ.isEmpty then d.dependees
   else (d.dependees.RemoveAndRenumberJs r).RemoveAndRenumberRows r⟩

/-- model.h `Model::RemoveAndRenumberJs`: renumber all five per-J
vectors. -/
def Model.RemoveAndRenumberJs (r : JRenumbering) (m : Model) : Model :=
  { m with
      precision := r.renumberIndicies 0 m.precision,
      w := r.renumberIndicies 0 m.w,
      delta_w := r.renumberIndicies 0 m.delta_w,
      loss_derivative := r.renumberIndicies 0 m.loss_derivative,
      creationTime := r.renumberIndicies 0 m.creationTime }

/-- optimizers.h `GradBoost`: its per-J state is the training and holdout
majorizers. -/
structure GradBoost where
  trainingMajorizer : List Dim1Majorizer
  holdoutMajorizer : List Dim1Majorizer
  deriving Repr, DecidableEq

/-- optimizers.h `GradBoost::RemoveAndRenumberJs` (the model part is
applied by the World step below, as in the source call chain). -/
def GradBoost.RemoveAndRenumberJs (r : JRenumbering) (g : GradBoost) : GradBoost :=
  if r.jToNewJ.isEmpty then g
  else ⟨r.renumberIndicies default g.trainingMajorizer,
        r.renumberIndicies default g.holdoutMajorizer⟩

/-- feature_map.h `FeatureMapBase::RemoveAndRenumberJs`: renumber the J of
every record (records whose J maps to `kInvalidJ` stay in the hash map as
tombstones), reset the counter to `next_j` and re-sync. -/
def FeatureMapBase.RemoveAndRenumberJs {κ : Type} [DecidableEq κ]
    (r : JRenumbering) (m : FeatureMapBase κ) : FeatureMapBase κ :=
  if r.jToNewJ.isEmpty then m
  else
    ({ m with
        entries := m.entries.map (fun e =>
          if e.2 ≠ kInvalidJ then (e.1, r.jToNewJ.getD e.2 kInvalidJ) else e),
        jSequence := r.nextJ,
        jToFeatureSynced := false } : FeatureMapBase κ).SyncJToFeatureMap

/-- world.h `World`: the aggregate of every per-J component (the SGD
optimizer's weight buffer included). -/
structure World where
  data : Data
  model : Model
  gradBoost : GradBoost
  sgdWeights : List ℚ
  productMap : FeatureMapBase ℕ
  jSize : ℕ

/-- world.cc `World::RemoveAndRenumber`: no-op renumberings return early;
otherwise set `j_size_` and renumber the data store, the batch optimizer
(with the model) and the product map.  The SGD optimizer is not touched. -/
def World.RemoveAndRenumber (w : World) (r : JRenumbering) : World :=
  if r.IsNoOp then w
  else
    { w with
        jSize := r.nextJ,
        data := w.data.RemoveAndRenumberJs r,
        gradBoost := w.gradBoost.RemoveAndRenumberJs r,
        model := Model.RemoveAndRenumberJs r w.model,
        productMap := w.productMap.RemoveAndRenumberJs r }

theorem foldl_preserves_length {α β : Type} (f : List α → β → List α)
    (hf : ∀ acc b, (f acc b).length = acc.length) :
    ∀ (l : List β) (acc : List α), (l.foldl f acc).length = acc.length := by
  intro l
  induction l with
  | nil => intro acc; rfl
  | cons b rest ih =>
    intro acc
    rw [List.foldl_cons, ih, hf]

theorem renumberIndicies_length {α : Type} (r : JRenumbering) (dflt : α)
    (v : List α) (h : r.jToNewJ.isEmpty = false) :
    (r.renumberIndicies dflt v).length = r.nextJ := by
  unfold JRenumbering.renumberIndicies
  rw [if_neg (by simp [h])]
  rw [foldl_preserves_length _ ?_ _ _, List.length_replicate]
  intro acc j
  split
  · exact List.length_set _ _ _
  · rfl

theorem newJToOldJ_length (r : JRenumbering) : r.newJToOldJ.length = r.nextJ := by
  unfold JRenumbering.newJToOldJ
  rw [foldl_preserves_length _ ?_ _ _, List.length_replicate]
  intro acc j
  split
  · exact List.length_set _ _ _
  · rfl

theorem isEmpty_false_of_not_noop (r : JRenumbering)
    (h : r.IsNoOp = false) : r.jToNewJ.isEmpty = false := by
  cases hq : r.jToNewJ.isEmpty
  · rfl
  · exfalso
    have hnil : r.jToNewJ = [] := List.isEmpty_iff.mp hq
    have : r.IsNoOp = true := by
      unfold JRenumbering.IsNoOp
      rw [hnil]
      rfl
    rw [this] at h
    exact Bool.noConfusion h

theorem syncVector_length {κ : Type} [DecidableEq κ] (m : FeatureMapBase κ) :
    (FeatureMapBase.syncVector m).length = m.jSequence := by
  unfold FeatureMapBase.syncVector
  rw [foldl_preserves_length _ ?_ _ _, List.length_replicate]
  intro acc e
  split
  · exact List.length_set _ _ _
  · rfl

/-- C6 (amended): a non-trivial renumbering applied through
`World::RemoveAndRenumber` renumbers the Model weights and all parallel
per-J vectors, the batch optimizer's majorizers, the product map, the shard
row contents, the stats and the dependees matrix (rows and row indices),
leaving each of those per-J components with length equal to the new J
count — but the SGD optimizer's per-J weight buffer is **not** renumbered
or resized (it is only rebuilt by `World::SetJSize` on `AddFeatures`). -/
theorem world_remove_and_renumber_spec (w : World) (r : JRenumbering)
    (hno : r.IsNoOp = false) :
    (w.RemoveAndRenumber r).jSize = r.nextJ ∧
    (w.RemoveAndRenumber r).model.w.length = r.nextJ ∧
    (w.RemoveAndRenumber r).model.delta_w.length = r.nextJ ∧
    (w.RemoveAndRenumber r).model.precision.length = r.nextJ ∧
    (w.RemoveAndRenumber r).model.loss_derivative.length = r.nextJ ∧
    (w.RemoveAndRenumber r).model.creationTime.length = r.nextJ ∧
    (w.RemoveAndRenumber r).gradBoost.trainingMajorizer.length = r.nextJ ∧
    (w.RemoveAndRenumber r).gradBoost.holdoutMajorizer.length = r.nextJ ∧
    (w.RemoveAndRenumber r).data.training.stats.positive.length = r.nextJ ∧
    (w.RemoveAndRenumber r).data.training.stats.negative.length = r.nextJ ∧
    (w.RemoveAndRenumber r).data.training.stats.hash.length = r.nextJ ∧
    (w.RemoveAndRenumber r).data.dependees.rows.length = r.nextJ ∧
    (w.RemoveAndRenumber r).productMap.jToFeature.length = r.nextJ ∧
    (w.RemoveAndRenumber r).data.training.shards
      = w.data.training.shards.map (Shard.RemoveAndRenumberJs r) ∧
    (w.RemoveAndRenumber r).sgdWeights = w.sgdWeights := by
  have hne : r.jToNewJ.isEmpty = false := isEmpty_false_of_not_noop r hno
  have hstep : w.RemoveAndRenumber r =
      { w with
          jSize := r.nextJ,
          data := w.data.RemoveAndRenumberJs r,
          gradBoost := w.gradBoost.RemoveAndRenumberJs r,
          model := Model.RemoveAndRenumberJs r w.model,
          productMap := w.productMap.RemoveAndRenumberJs r } := by
    unfold World.RemoveAndRenumber
    rw [if_neg (by simp [hno])]
  rw [hstep]
  refine ⟨rfl, ?_, ?_, ?_, ?_, ?_, ?_, ?_, ?_, ?_, ?_, ?_, ?_, rfl, rfl⟩
  · exact renumberIndicies_length r 0 _ hne
  · exact renumberIndicies_length r 0 _ hne
  · exact renumberIndicies_length r 0 _ hne
  · exact renumberIndicies_length r 0 _ hne
  · exact renumberIndicies_length r 0 _ hne
  · show (GradBoost.RemoveAndRenumberJs r w.gradBoost).trainingMajorizer.length = r.nextJ
    unfold GradBoost.RemoveAndRenumberJs
    rw [if_neg (by simp [hne])]
    exact renumberIndicies_length r default _ hne
  · show (GradBoost.RemoveAndRenumberJs r w.gradBoost).holdoutMajorizer.length = r.nextJ
    unfold GradBoost.RemoveAndRenumberJs
    rw [if_neg (by simp [hne])]
    exact renumberIndicies_length r default _ hne
  · exact renumberIndicies_length r 0 _ hne
  · exact renumberIndicies_length r 0 _ hne
  · exact renumberIndicies_length r 0 _ hne
  · show ((w.data.RemoveAndRenumberJs r).dependees).rows.length = r.nextJ
    unfold Data.RemoveAndRenumberJs
    dsimp only
    rw [if_neg (by simp [hne])]
    unfold CsrMatrix.RemoveAndRenumberRows
    rw [if_neg (by simp [hne])]
    rw [List.length_map]
    exact newJToOldJ_length r
  · show (FeatureMapBase.RemoveAndRenumberJs r w.productMap).jToFeature.length = r.nextJ
    unfold FeatureMapBase.RemoveAndRenumberJs
    rw [if_neg (by simp [hne])]
    unfold FeatureMapBase.SyncJToFeatureMap
    rw [if_neg (by simp)]
    dsimp only
    rw [syncVector_length]

/-- A concrete two-feature world used for the C6 statements: one training
shard with one row `[0, 1]`, a dependees edge `0 → 1`, per-J vectors of
length 2 everywhere, SGD weights `[1, 2]`. -/
def c6World : World :=
  { data :=
      ⟨⟨[⟨⟨[[0, 1]]⟩, [1], [0]⟩], ⟨[1, 1], [0, 0], [7, 7]⟩⟩,
       ⟨[], ⟨[], [], []⟩⟩,
       ⟨[[1], []]⟩⟩,
    model :=
      { precision := [0, 0], w := [1, 2], delta_w := [0, 0],
        loss_derivative := [0, 0], creationTime := [0, 0],
        currentCreationTime := 0, prevTotalLoss := ⊤, totalLoss := ⊤,
        syncedWithWeights := true, iterationNo := 0 },
    gradBoost := ⟨[⟨0, 0⟩, ⟨0, 0⟩], [⟨0, 0⟩, ⟨0, 0⟩]⟩,
    sgdWeights := [1, 2],
    productMap := ⟨[(10, 0), (11, 1)], 2, [], false⟩,
    jSize := 2 }

/-- Witness for C6's amended theorem: removing J 0 of the two-feature world
leaves every renumbered per-J component with length `next_j = 1` and the
SGD weight buffer untouched. -/
theorem world_remove_and_renumber_spec_witness :
    (c6World.RemoveAndRenumber (JRenumbering.RemoveJs [true, false])).model.w.length
      = (JRenumbering.RemoveJs [true, false]).nextJ ∧
    (c6World.RemoveAndRenumber (JRenumbering.RemoveJs [true, false])).sgdWeights
      = c6World.sgdWeights :=
  have h := world_remove_and_renumber_spec c6World
    (JRenumbering.RemoveJs [true, false]) (by decide)
  ⟨h.2.1, h.2.2.2.2.2.2.2.2.2.2.2.2.2.2⟩

/-- Counterexample to C6 as stated: `World::RemoveAndRenumber` does **not**
renumber or resize the SGD optimizer's per-J state.  Removing one of the
two J's gives `next_j = 1`, the model weights shrink to length 1, but the
SGD weight buffer still has length 2. -/
theorem world_sgd_not_renumbered_counterexample :
    (c6World.RemoveAndRenumber (JRenumbering.RemoveJs [true, false])).sgdWeights.length = 2 ∧
    (JRenumbering.RemoveJs [true, false]).nextJ = 1 ∧
    (c6World.RemoveAndRenumber (JRenumbering.RemoveJs [true, false])).model.w.length = 1 ∧
    ¬ ((c6World.RemoveAndRenumber (JRenumbering.RemoveJs [true, false])).sgdWeights.length
        = (JRenumbering.RemoveJs [true, false]).nextJ) := by
  decide

/-! ## Row extension under the dependees graph (row_extender.h,
feature_exploration.cc) -/

/-- The dependees graphs the engine builds: every feature J either is a
data-level (atomic) feature, or was generated by
`FeatureExploration::AddNewProductFeatures` from two existing features
`p1 < p2 < J` whose `JProduct::And` is the new feature's factor set. -/
structure DepGraph where
  n : ℕ
  parents : ℕ → Option (ℕ × ℕ)
  factors : ℕ → Finset ℕ

/-- Well-formedness of an engine-built dependees graph: generated products
have ascending parents and the merged factor set; atomic features carry a
single atomic factor, and distinct atomic features have distinct factors. -/
def DepGraph.WF (G : DepGraph) : Prop :=
  (∀ j, j < G.n →
    match G.parents j with
    | some (p1, p2) => p1 < p2 ∧ p2 < j ∧ G.factors j = G.factors p1 ∪ G.factors p2
    | none => True) ∧
  (∀ j, j < G.n → G.parents j = none → (G.factors j).card = 1) ∧
  (∀ b1, b1 < G.n → ∀ b2, b2 < G.n → G.parents b1 = none → G.parents b2 = none →
    G.factors b1 = G.factors b2 → b1 = b2)

/-- The dependees CSR row of `j`: the products whose recorded generating
pair contains `j` (both `coo_dependees.SetTrue(j_pair, new_f_j)` edges),
listed in ascending J order (`coo.Sort` + `FromCooMatrix`). -/
def engineDep (G : DepGraph) (j : ℕ) : List ℕ :=
  (List.range G.n).filter (fun c =>
    match G.parents c with
    | some (q1, q2) => decide (q1 = j) || decide (q2 = j)
    | none => false)

/-- The atomic factors present in a row: the union of the factor sets of
the row's features. -/
def atomsOf (G : DepGraph) (R : List ℕ) : Finset ℕ :=
  R.foldr (fun b acc => G.factors b ∪ acc) ∅

/-- row_extender.h `RowExtender::ExtendSparseBool`, inner loop over
`dependees_->GetRow(j)`: bump each child's seen-factor counter and append
the child to the rewritten row when the counter reaches 2. -/
def processChildren : List ℕ → List ℕ → (ℕ → ℕ) → List ℕ × (ℕ → ℕ)
  | [], row, d => (row, d)
  | c :: cs, row, d =>
    let dc := d c + 1
    processChildren cs (if dc = 2 then row ++ [c] else row)
      (Function.update d c dc)

/-- row_extender.h `RowExtender::ExtendSparseBool`, outer loop: walk the
growing rewritten row by index (fuel bounds the number of iterations; the
source loop terminates because each pushed child is pushed once). -/
def extendSparseBoolAux (dep : ℕ → List ℕ) :
    ℕ → ℕ → List ℕ → (ℕ → ℕ) → List ℕ
  | 0, _, row, _ => row
  | fuel + 1, i, row, d =>
    if i < row.length then
      let t := processChildren (dep (row.getD i 0)) row d
      extendSparseBoolAux dep fuel (i + 1) t.1 t.2
    else row

/-- row_extender.h `RowExtender::ExtendSparseBool`: extend a sparse row to
its closure under the dependees rows, starting from cleared counters.  The
fuel `|row| + n` covers the worst case (every feature pushed once). -/
def ExtendSparseBool (dep : ℕ → List ℕ) (n : ℕ) (row : List ℕ) : List ℕ :=
  extendSparseBoolAux dep (row.length + n) 0 row (fun _ => 0)

theorem mem_engineDep (G : DepGraph) (j c : ℕ) :
    c ∈ engineDep G j ↔ c < G.n ∧ ∃ q1 q2,
      G.parents c = some (q1, q2) ∧ (q1 = j ∨ q2 = j) := by
  unfold engineDep
  rw [List.mem_filter, List.mem_range]
  constructor
  · rintro ⟨hlt, hmatch⟩
    refine ⟨hlt, ?_⟩
    cases hp : G.parents c with
    | none => rw [hp] at hmatch; exact Bool.noConfusion hmatch
    | some pr =>
      obtain ⟨q1, q2⟩ := pr
      rw [hp] at hmatch
      simp only [Bool.or_eq_true, decide_eq_true_eq] at hmatch
      exact ⟨q1, q2, rfl, hmatch⟩
  · rintro ⟨hlt, q1, q2, hp, hq⟩
    refine ⟨hlt, ?_⟩
    rw [hp]
    simp only [Bool.or_eq_true, decide_eq_true_eq]
    exact hq

theorem engineDep_nodup (G : DepGraph) (j : ℕ) : (engineDep G j).Nodup :=
  List.Nodup.filter _ (List.nodup_range G.n)

theorem mem_atomsOf (G : DepGraph) (R : List ℕ) (a : ℕ) :
    a ∈ atomsOf G R ↔ ∃ b ∈ R, a ∈ G.factors b := by
  induction R with
  | nil => simp [atomsOf]
  | cons b rest ih =>
    simp only [atomsOf, List.foldr_cons, Finset.mem_union]
    rw [show rest.foldr (fun b acc => G.factors b ∪ acc) ∅ = atomsOf G rest from rfl] at *
    rw [ih]
    simp only [List.mem_cons]
    constructor
    · rintro (h | ⟨b', hb', ha⟩)
      · exact ⟨b, Or.inl rfl, h⟩
      · exact ⟨b', Or.inr hb', ha⟩
    · rintro ⟨b', hb' | hb', ha⟩
      · exact Or.inl (hb' ▸ ha)
      · exact Or.inr ⟨b', hb', ha⟩

theorem processChildren_spec (cs : List ℕ) :
    ∀ (row : List ℕ) (d : ℕ → ℕ), cs.Nodup →
      (processChildren cs row d).1
        = row ++ cs.filter (fun c => decide (d c + 1 = 2)) ∧
      ∀ c', (processChildren cs row d).2 c'
        = if c' ∈ cs then d c' + 1 else d c' := by
  induction cs with
  | nil =>
    intro row d _
    refine ⟨by simp [processChildren], fun c' => by simp [processChildren]⟩
  | cons c cs' ih =>
    intro row d hnd
    obtain ⟨hc, hnd'⟩ := List.nodup_cons.mp hnd
    obtain ⟨ih1, ih2⟩ := ih (if d c + 1 = 2 then row ++ [c] else row)
      (Function.update d c (d c + 1)) hnd'
    have hfeq : cs'.filter
        (fun c' => decide (Function.update d c (d c + 1) c' + 1 = 2))
        = cs'.filter (fun c' => decide (d c' + 1 = 2)) := by
      apply List.filter_congr
      intro c' hc'
      have hne : c' ≠ c := fun h => hc (h ▸ hc')
      rw [Function.update_noteq hne]
    constructor
    · show (processChildren cs' (if d c + 1 = 2 then row ++ [c] else row)
          (Function.update d c (d c + 1))).1 = _
      rw [ih1, hfeq, List.filter_cons]
      by_cases hdc : d c + 1 = 2
      · rw [if_pos hdc, if_pos (by simpa using hdc)]
        simp
      · rw [if_neg hdc, if_neg (by simpa using hdc)]
    · intro c'
      show (processChildren cs' (if d c + 1 = 2 then row ++ [c] else row)
          (Function.update d c (d c + 1))).2 c' = _
      rw [ih2 c']
      by_cases hmem : c' ∈ cs'
      · have hne : c' ≠ c := fun h => hc (h ▸ hmem)
        rw [if_pos hmem, if_pos (List.mem_cons_of_mem c hmem),
          Function.update_noteq hne]
      · rw [if_neg hmem]
        by_cases hcc : c' = c
        · subst hcc
          rw [Function.update_same, if_pos (List.mem_cons_self _ _)]
        · rw [Function.update_noteq hcc, if_neg (by simp [hcc, hmem])]

theorem countP_pair_zero (q1 q2 : ℕ) (l : List ℕ) (h1 : q1 ∉ l) (h2 : q2 ∉ l) :
    l.countP (fun j => decide (j = q1 ∨ j = q2)) = 0 := by
  rw [List.countP_eq_zero]
  intro j hj
  simp only [decide_eq_true_eq]
  rintro (rfl | rfl)
  · exact h1 hj
  · exact h2 hj

theorem countP_pair_one (q1 q2 : ℕ) (l : List ℕ) (hnd : l.Nodup)
    (h1 : q1 ∈ l) (h2 : q2 ∉ l) :
    l.countP (fun j => decide (j = q1 ∨ j = q2)) = 1 := by
  induction l with
  | nil => exact absurd h1 (List.not_mem_nil q1)
  | cons j rest ih =>
    obtain ⟨hj, hnd'⟩ := List.nodup_cons.mp hnd
    rw [List.countP_cons]
    rcases List.mem_cons.mp h1 with rfl | h1'
    · have : rest.countP (fun j => decide (j = q1 ∨ j = q2)) = 0 :=
        countP_pair_zero q1 q2 rest hj (fun h => h2 (List.mem_cons_of_mem _ h))
      rw [this]
      simp
    · have hjq1 : j ≠ q1 := fun h => hj (h ▸ h1')
      have hjq2 : j ≠ q2 := fun h => h2 (h ▸ List.mem_cons_self j rest)
      rw [ih hnd' h1' (fun h => h2 (List.mem_cons_of_mem _ h))]
      simp [hjq1, hjq2]

theorem countP_pair_one' (q1 q2 : ℕ) (l : List ℕ) (hnd : l.Nodup)
    (h1 : q1 ∉ l) (h2 : q2 ∈ l) :
    l.countP (fun j => decide (j = q1 ∨ j = q2)) = 1 := by
  have hswap : l.countP (fun j => decide (j = q1 ∨ j = q2))
      = l.countP (fun j => decide (j = q2 ∨ j = q1)) := by
    apply List.countP_congr
    intro j _
    simp [or_comm]
  rw [hswap]
  exact countP_pair_one q2 q1 l hnd h2 h1

theorem countP_pair_two (q1 q2 : ℕ) (hne : q1 ≠ q2) :
    ∀ (l : List ℕ), l.Nodup → q1 ∈ l → q2 ∈ l →
      2 ≤ l.countP (fun j => decide (j = q1 ∨ j = q2)) := by
  intro l
  induction l with
  | nil => intro _ h; exact absurd h (List.not_mem_nil q1)
  | cons j rest ih =>
    intro hnd h1 h2
    obtain ⟨hj, hnd'⟩ := List.nodup_cons.mp hnd
    rw [List.countP_cons]
    rcases List.mem_cons.mp h1 with rfl | h1'
    · have h2' : q2 ∈ rest := by
        rcases List.mem_cons.mp h2 with h | h
        · exact absurd h.symm hne
        · exact h
      have hpos : 0 < rest.countP (fun j => decide (j = q1 ∨ j = q2)) := by
        rw [List.countP_pos]
        exact ⟨q2, h2', by simp⟩
      have hif : (if (decide (q1 = q1 ∨ q1 = q2)) = true then (1 : ℕ) else 0) = 1 := by
        simp
      omega
    · rcases List.mem_cons.mp h2 with rfl | h2'
      · have hpos : 0 < rest.countP (fun j => decide (j = q1 ∨ j = q2)) := by
          rw [List.countP_pos]
          exact ⟨q1, h1', by simp⟩
        have hif : (if (decide (q2 = q1 ∨ q2 = q2)) = true then (1 : ℕ) else 0) = 1 := by
          simp
        omega
      · have := ih hnd' h1' h2'
        omega

theorem countP_pair_le_one_of_not_mem (q1 q2 : ℕ) (l : List ℕ) (hnd : l.Nodup)
    (hcnt : l.countP (fun j => decide (j = q1 ∨ j = q2)) = 1) :
    q1 ∈ l ∨ q2 ∈ l := by
  by_contra hcon
  push_neg at hcon
  rw [countP_pair_zero q1 q2 l hcon.1 hcon.2] at hcnt
  exact Nat.noConfusion hcnt

theorem countP_dep_eq (G : DepGraph) (c q1 q2 : ℕ) (hc : c < G.n)
    (hp : G.parents c = some (q1, q2)) (l : List ℕ) :
    l.countP (fun j => decide (c ∈ engineDep G j))
      = l.countP (fun j => decide (j = q1 ∨ j = q2)) := by
  apply List.countP_congr
  intro j _
  simp only [decide_eq_true_eq]
  rw [mem_engineDep]
  constructor
  · rintro ⟨_, p1, p2, hp', hor⟩
    rw [hp] at hp'
    injection hp' with hpair
    injection hpair with e1 e2
    subst e1
    subst e2
    rcases hor with h | h
    · exact Or.inl h.symm
    · exact Or.inr h.symm
  · rintro (h | h)
    · exact ⟨hc, q1, q2, hp, Or.inl h.symm⟩
    · exact ⟨hc, q1, q2, hp, Or.inr h.symm⟩

/-- The loop invariant of `ExtendSparseBool` on an engine-built graph and an
atomic-feature row `R`: no duplicates, cursor in range, every counter holds
the number of processed elements whose dependee row contains it, and the
row consists of `R` plus exactly the products whose two generating parents
are both processed. -/
def ExtInv (G : DepGraph) (R : List ℕ) (i : ℕ) (row : List ℕ) (d : ℕ → ℕ) : Prop :=
  row.Nodup ∧
  i ≤ row.length ∧
  (∀ c, d c = (row.take i).countP (fun j => decide (c ∈ engineDep G j))) ∧
  (∀ x, x ∈ row ↔ x ∈ R ∨ (x < G.n ∧ ∃ q1 q2, G.parents x = some (q1, q2) ∧
      q1 ∈ row.take i ∧ q2 ∈ row.take i))

theorem extStep_inv (G : DepGraph) (hWF : G.WF) (R : List ℕ)
    (hR : ∀ b ∈ R, b < G.n ∧ G.parents b = none)
    (i : ℕ) (row : List ℕ) (d : ℕ → ℕ)
    (hinv : ExtInv G R i row d) (hi : i < row.length) :
    ExtInv G R (i + 1)
      (processChildren (engineDep G (row.getD i 0)) row d).1
      (processChildren (engineDep G (row.getD i 0)) row d).2 := by
  obtain ⟨hnd, hile, hcnt, hchar⟩ := hinv
  obtain ⟨hrow', hd'⟩ :=
    processChildren_spec (engineDep G (row.getD i 0)) row d
      (engineDep_nodup G (row.getD i 0))
  have hjget : row.getD i 0 = row[i] := List.getD_eq_getElem row 0 hi
  have hndtake : (row.take i).Nodup := (List.take_sublist i row).nodup hnd
  have htake1 : row.take (i + 1) = row.take i ++ [row.getD i 0] := by
    rw [List.take_succ, List.getElem?_eq_getElem hi, hjget]
    rfl
  have hjnotin : row.getD i 0 ∉ row.take i := by
    intro hmem
    rw [List.mem_take_iff_getElem] at hmem
    obtain ⟨k, hk, hkx⟩ := hmem
    have hk2 : k < row.length := (lt_min_iff.mp hk).2
    have hki : k < i := (lt_min_iff.mp hk).1
    rw [hjget] at hkx
    have := (List.Nodup.getElem_inj_iff hnd).mp hkx
    omega
  have htake' : (processChildren (engineDep G (row.getD i 0)) row d).1.take (i + 1)
      = row.take i ++ [row.getD i 0] := by
    rw [hrow', List.take_append_of_le_length (by omega), htake1]
  -- facts about every pushed element
  have hpush_fact : ∀ c ∈ (engineDep G (row.getD i 0)).filter
      (fun c => decide (d c + 1 = 2)),
      c < G.n ∧ ∃ q1 q2, G.parents c = some (q1, q2) ∧ q1 < q2 ∧
        (q1 = row.getD i 0 ∨ q2 = row.getD i 0) ∧ d c = 1 := by
    intro c hcmem
    obtain ⟨hdep, hcount⟩ := List.mem_filter.mp hcmem
    obtain ⟨hcn, q1, q2, hp, hor⟩ := (mem_engineDep G _ c).mp hdep
    have hwf1 := hWF.1 c hcn
    rw [hp] at hwf1
    refine ⟨hcn, q1, q2, hp, hwf1.1, hor, ?_⟩
    have := of_decide_eq_true hcount
    omega
  -- pushed elements are not already in the row
  have hpush_notin : ∀ c ∈ (engineDep G (row.getD i 0)).filter
      (fun c => decide (d c + 1 = 2)), c ∉ row := by
    intro c hcmem hcrow
    obtain ⟨hcn, q1, q2, hp, h12, hor, hd1⟩ := hpush_fact c hcmem
    rcases (hchar c).mp hcrow with hcR | ⟨_, p1, p2, hp', hq1, hq2⟩
    · have := (hR c hcR).2
      rw [hp] at this
      exact Option.noConfusion this
    · rw [hp] at hp'
      injection hp' with hpair
      injection hpair with e1 e2
      subst e1
      subst e2
      have h2 := countP_pair_two q1 q2 (Nat.ne_of_lt h12) (row.take i)
        hndtake hq1 hq2
      rw [hcnt c, countP_dep_eq G c q1 q2 hcn hp] at hd1
      omega
  refine ⟨?_, ?_, ?_, ?_⟩
  · -- Nodup
    rw [hrow', List.nodup_append]
    exact ⟨hnd, List.Nodup.filter _ (engineDep_nodup G _),
      fun a ha hmem => hpush_notin a hmem ha⟩
  · -- cursor bound
    rw [hrow', List.length_append]
    omega
  · -- counters
    intro c
    rw [htake', List.countP_append, hd' c, hcnt c]
    by_cases hdep : c ∈ engineDep G (row.getD i 0)
    · rw [if_pos hdep]
      have hone : ([row.getD i 0].countP fun j => decide (c ∈ engineDep G j)) = 1 := by
        rw [List.countP_cons, List.countP_nil, if_pos (decide_eq_true hdep)]
      omega
    · rw [if_neg hdep]
      have hzero : ([row.getD i 0].countP fun j => decide (c ∈ engineDep G j)) = 0 := by
        rw [List.countP_cons, List.countP_nil,
          if_neg (by simp only [decide_eq_true_eq]; exact hdep)]
      omega
  · -- membership characterisation
    intro x
    rw [htake', hrow', List.mem_append]
    constructor
    · rintro (hxrow | hxpush)
      · rcases (hchar x).mp hxrow with hxR | ⟨hxn, q1, q2, hp, hq1, hq2⟩
        · exact Or.inl hxR
        · exact Or.inr ⟨hxn, q1, q2, hp, List.mem_append_left _ hq1,
            List.mem_append_left _ hq2⟩
      · obtain ⟨hxn, q1, q2, hp, h12, hor, hd1⟩ := hpush_fact x hxpush
        rw [hcnt x, countP_dep_eq G x q1 q2 hxn hp] at hd1
        have hone := countP_pair_le_one_of_not_mem q1 q2 (row.take i) hndtake hd1
        refine Or.inr ⟨hxn, q1, q2, hp, ?_, ?_⟩
        · rcases hor with h | h
          · exact List.mem_append_right _ (by rw [h]; exact List.mem_singleton_self _)
          · rcases hone with hq1i | hq2i
            · exact List.mem_append_left _ hq1i
            · exact absurd (h ▸ hq2i) hjnotin
        · rcases hor with h | h
          · rcases hone with hq1i | hq2i
            · exact absurd (h ▸ hq1i) hjnotin
            · exact List.mem_append_left _ hq2i
          · exact List.mem_append_right _ (by rw [h]; exact List.mem_singleton_self _)
    · rintro (hxR | ⟨hxn, q1, q2, hp, hq1, hq2⟩)
      · exact Or.inl ((hchar x).mpr (Or.inl hxR))
      · have hwf1 := hWF.1 x hxn
        rw [hp] at hwf1
        have h12 : q1 < q2 := hwf1.1
        rcases List.mem_append.mp hq1 with hq1i | hq1j
        · rcases List.mem_append.mp hq2 with hq2i | hq2j
          · exact Or.inl ((hchar x).mpr (Or.inr ⟨hxn, q1, q2, hp, hq1i, hq2i⟩))
          · have hq2j' : q2 = row.getD i 0 := List.mem_singleton.mp hq2j
            refine Or.inr (List.mem_filter.mpr ⟨?_, ?_⟩)
            · exact (mem_engineDep G _ x).mpr ⟨hxn, q1, q2, hp, Or.inr hq2j'⟩
            · have hq2no : q2 ∉ row.take i := hq2j' ▸ hjnotin
              have hcnt1 := countP_pair_one q1 q2 (row.take i) hndtake hq1i hq2no
              rw [hcnt x, countP_dep_eq G x q1 q2 hxn hp, hcnt1]
              decide
        · rcases List.mem_append.mp hq2 with hq2i | hq2j
          · have hq1j' : q1 = row.getD i 0 := List.mem_singleton.mp hq1j
            refine Or.inr (List.mem_filter.mpr ⟨?_, ?_⟩)
            · exact (mem_engineDep G _ x).mpr ⟨hxn, q1, q2, hp, Or.inl hq1j'⟩
            · have hq1no : q1 ∉ row.take i := hq1j' ▸ hjnotin
              have hcnt1 := countP_pair_one' q1 q2 (row.take i) hndtake hq1no hq2i
              rw [hcnt x, countP_dep_eq G x q1 q2 hxn hp, hcnt1]
              decide
          · have h1 := List.mem_singleton.mp hq1j
            have h2 := List.mem_singleton.mp hq2j
            omega

theorem extendAux_run (G : DepGraph) (hWF : G.WF) (R : List ℕ)
    (hR : ∀ b ∈ R, b < G.n ∧ G.parents b = none) :
    ∀ (fuel i : ℕ) (row : List ℕ) (d : ℕ → ℕ), ExtInv G R i row d →
      R.length + G.n ≤ fuel + i →
      ∀ x, x ∈ extendSparseBoolAux (engineDep G) fuel i row d ↔
        x ∈ R ∨ (x < G.n ∧ ∃ q1 q2, G.parents x = some (q1, q2) ∧
          q1 ∈ extendSparseBoolAux (engineDep G) fuel i row d ∧
          q2 ∈ extendSparseBoolAux (engineDep G) fuel i row d) := by
  intro fuel
  induction fuel with
  | zero =>
    intro i row d hinv hfuel x
    obtain ⟨hnd, hile, hcnt, hchar⟩ := hinv
    have hsub : row ⊆ R ++ List.range G.n := by
      intro a ha
      rcases (hchar a).mp ha with h | ⟨hn, _⟩
      · exact List.mem_append_left _ h
      · exact List.mem_append_right _ (List.mem_range.mpr hn)
    have hbound : row.length ≤ R.length + G.n := by
      have := (hnd.subperm hsub).length_le
      simpa using this
    have htake : row.take i = row := List.take_of_length_le (by omega)
    rw [htake] at hchar
    show x ∈ row ↔ x ∈ R ∨ (x < G.n ∧ ∃ q1 q2, G.parents x = some (q1, q2) ∧
      q1 ∈ row ∧ q2 ∈ row)
    exact hchar x
  | succ fuel ih =>
    intro i row d hinv hfuel x
    by_cases hlt : i < row.length
    · have heq : extendSparseBoolAux (engineDep G) (fuel + 1) i row d
          = extendSparseBoolAux (engineDep G) fuel (i + 1)
              (processChildren (engineDep G (row.getD i 0)) row d).1
              (processChildren (engineDep G (row.getD i 0)) row d).2 := by
        rw [extendSparseBoolAux, if_pos hlt]
      rw [heq]
      exact ih (i + 1) _ _ (extStep_inv G hWF R hR i row d hinv hlt)
        (by omega) x
    · have heq : extendSparseBoolAux (engineDep G) (fuel + 1) i row d = row := by
        rw [extendSparseBoolAux, if_neg hlt]
      rw [heq]
      obtain ⟨hnd, hile, hcnt, hchar⟩ := hinv
      have htake : row.take i = row := List.take_of_length_le (le_of_not_lt hlt)
      rw [htake] at hchar
      exact hchar x

/-- C2: for every engine-built dependees graph (each product generated from
two existing features `p1 < p2` with merged factor sets, atomic features
carrying pairwise-distinct single factors) and every duplicate-free row of
atomic features, after `ExtendSparseBool` the rewritten row contains a
product feature's J if and only if all of that product's atomic factor J's
are present in the row. -/
theorem extend_row_contains_product_iff (G : DepGraph) (hWF : G.WF)
    (R : List ℕ) (hRmem : ∀ b ∈ R, b < G.n ∧ G.parents b = none)
    (hRnd : R.Nodup) (c : ℕ) (hc : c < G.n) (q1 q2 : ℕ)
    (hprod : G.parents c = some (q1, q2)) :
    c ∈ ExtendSparseBool (engineDep G) G.n R ↔
      G.factors c ⊆ atomsOf G R := by
  have hinit : ExtInv G R 0 R (fun _ => 0) := by
    refine ⟨hRnd, Nat.zero_le _, ?_, ?_⟩
    · intro c'
      rw [List.take_zero, List.countP_nil]
    · intro x
      rw [List.take_zero]
      constructor
      · intro h
        exact Or.inl h
      · rintro (h | ⟨_, q1', q2', _, h, _⟩)
        · exact h
        · exact absurd h (List.not_mem_nil q1')
  have hrun := extendAux_run G hWF R hRmem (R.length + G.n) 0 R (fun _ => 0)
    hinit (by omega)
  have hmain : ∀ y, y < G.n →
      (y ∈ ExtendSparseBool (engineDep G) G.n R ↔
        match G.parents y with
        | none => y ∈ R
        | some _ => G.factors y ⊆ atomsOf G R) := by
    intro y
    induction y using Nat.strong_induction_on with
    | _ y ihy =>
      intro hy
      have hbridge : ∀ z, z < G.n →
          (z ∈ ExtendSparseBool (engineDep G) G.n R ↔
            match G.parents z with
            | none => z ∈ R
            | some _ => G.factors z ⊆ atomsOf G R) →
          (z ∈ ExtendSparseBool (engineDep G) G.n R ↔
            G.factors z ⊆ atomsOf G R) := by
        intro z hz hcond
        cases hpz : G.parents z with
        | some pr2 =>
          rw [hcond, hpz]
        | none =>
          rw [hcond, hpz]
          show z ∈ R ↔ G.factors z ⊆ atomsOf G R
          constructor
          · intro hzR a' ha'
            rw [mem_atomsOf]
            exact ⟨z, hzR, ha'⟩
          · intro hsubz
            have hcard := hWF.2.1 z hz hpz
            obtain ⟨a', hfa⟩ := Finset.card_eq_one.mp hcard
            have hmemA : a' ∈ atomsOf G R :=
              hsubz (by rw [hfa]; exact Finset.mem_singleton_self a')
            rw [mem_atomsOf] at hmemA
            obtain ⟨b', hb'R, hab'⟩ := hmemA
            obtain ⟨hb'n, hb'none⟩ := hRmem b' hb'R
            have hcardb := hWF.2.1 b' hb'n hb'none
            obtain ⟨a'', hfb⟩ := Finset.card_eq_one.mp hcardb
            have heqa : a' = a'' := by
              rw [hfb] at hab'
              exact Finset.mem_singleton.mp hab'
            have hfeq : G.factors z = G.factors b' := by
              rw [hfa, hfb, heqa]
            have := hWF.2.2 z hz b' hb'n hpz hb'none hfeq
            rw [this]
            exact hb'R
      cases hpy : G.parents y with
      | none =>
        show y ∈ ExtendSparseBool (engineDep G) G.n R ↔ y ∈ R
        constructor
        · intro hmem
          rcases (hrun y).mp hmem with h | ⟨_, a, b, hpy', _⟩
          · exact h
          · rw [hpy] at hpy'
            exact Option.noConfusion hpy'
        · intro h
          exact (hrun y).mpr (Or.inl h)
      | some pr =>
        obtain ⟨a, b⟩ := pr
        have hwf1 := hWF.1 y hy
        rw [hpy] at hwf1
        obtain ⟨hab, hby, hfac⟩ := hwf1
        have han : a < G.n := by omega
        have hbn : b < G.n := by omega
        have hcondA := ihy a (by omega) han
        have hcondB := ihy b (by omega) hbn
        have hynotR : y ∉ R := by
          intro h
          have := (hRmem y h).2
          rw [hpy] at this
          exact Option.noConfusion this
        show y ∈ ExtendSparseBool (engineDep G) G.n R ↔
          G.factors y ⊆ atomsOf G R
        constructor
        · intro hmem
          rcases (hrun y).mp hmem with h | ⟨_, a', b', hpy', hq1m, hq2m⟩
          · exact absurd h hynotR
          · rw [hpy] at hpy'
            injection hpy' with hpr
            injection hpr with e1 e2
            subst e1
            subst e2
            rw [hfac]
            exact Finset.union_subset
              ((hbridge a han hcondA).mp hq1m)
              ((hbridge b hbn hcondB).mp hq2m)
        · intro hsub
          apply (hrun y).mpr
          refine Or.inr ⟨hy, a, b, hpy, ?_, ?_⟩
          · exact (hbridge a han hcondA).mpr
              (fun t ht => hsub (by rw [hfac]; exact Finset.mem_union_left _ ht))
          · exact (hbridge b hbn hcondB).mpr
              (fun t ht => hsub (by rw [hfac]; exact Finset.mem_union_right _ ht))
  have := hmain c hc
  rw [hprod] at this
  exact this

/-- The three-feature graph used to witness C2: atomic features 0 and 1
with factors `{0}` and `{1}`, and product 2 generated from `(0, 1)` with
factors `{0, 1}`. -/
def c2Graph : DepGraph :=
  ⟨3, fun j => if j = 2 then some (0, 1) else none,
   fun j => if j = 2 then {0, 1} else {j}⟩

/-- Witness for C2: on the three-feature graph, extending the row `[0, 1]`
adds the product 2 (both its atomic factors are present). -/
theorem extend_row_contains_product_iff_witness :
    2 ∈ ExtendSparseBool (engineDep c2Graph) c2Graph.n [0, 1] :=
  (extend_row_contains_product_iff c2Graph
      (by
        refine ⟨?_, ?_, ?_⟩
        · intro j hj
          have hj3 : j < 3 := hj
          interval_cases j <;> simp [c2Graph] <;> decide
        · intro j hj hpar
          have hj3 : j < 3 := hj
          interval_cases j
          · decide
          · decide
          · exact absurd hpar (by decide)
        · intro b1 hb1 b2 hb2 hp1 hp2 hfeq
          have h1 : b1 < 3 := hb1
          have h2 : b2 < 3 := hb2
          interval_cases b1 <;> interval_cases b2 <;>
            first
            | rfl
            | exact absurd hfeq (by decide)
            | exact absurd hp1 (by decide)
            | exact absurd hp2 (by decide))
      [0, 1] (by decide) (by decide) 2 (by decide) 0 1 (by decide)).mpr
    (by decide)

end Sensei
